import Mathlib

/-!
Verification of `tools/put-logs.py`: a helper that reads a JSON file holding
one log record (a JSON object) or an array of records, rewrites each record's
nested `_aws.Timestamp` field to "one second before now", and uploads all
records in a single CloudWatch `put_log_events` call, each record re-serialized
with `json.dumps` and stamped with a fresh wall-clock reading.

The embedding models:
  * JSON values (`JsonValue`), with numbers restricted to integers — the test
    fixtures the tool processes use integer timestamps/counters, and binary
    floating point is out of scope for this development;
  * Python `dict` access/update on parsed JSON objects (`objGet`, `objSet`:
    insertion-ordered association lists, last-write-wins on an existing key
    keeps its position, a new key is appended — CPython dict semantics);
  * `json.dumps` with its default options (`", "` / `": "` separators,
    `ensure_ascii=True` with `\uXXXX` escapes and surrogate pairs) as
    `dumps`, and `json.loads` as `loads` (a fuel-indexed recursive-descent
    parser; lone surrogate escapes are rejected since Lean `Char` cannot
    carry them, and number syntax is integer-only);
  * the script's `main` as a pure function `run` of the parsed CLI arguments,
    a file-system oracle and a clock oracle, returning an outcome plus the
    ordered trace of external effects (file open, session creation, the
    single `put_log_events` call with its payload).
-/

/-- JSON values as produced by `json.loads`; objects keep insertion order.
Numbers are modelled as integers (see module comment). -/
inductive JsonValue where
  | null : JsonValue
  | bool (b : Bool) : JsonValue
  | num (n : Int) : JsonValue
  | str (s : String) : JsonValue
  | arr (elems : List JsonValue) : JsonValue
  | obj (entries : List (String × JsonValue)) : JsonValue
deriving Repr

/-- Python `d.get(key)` / `d[key]` on a dict modelled as an ordered
association list: return the value at the first matching key. -/
def objGet : List (String × JsonValue) → String → Option JsonValue
  | [], _ => none
  | (k, v) :: rest, key => if k = key then some v else objGet rest key

/-- Python `d[key] = val` on a dict: overwrite in place if the key exists
(keeping its position), otherwise append the new entry. -/
def objSet : List (String × JsonValue) → String → JsonValue → List (String × JsonValue)
  | [], key, val => [(key, val)]
  | (k, v) :: rest, key, val =>
    if k = key then (k, val) :: rest else (k, v) :: objSet rest key val

/- ---------------------------------------------------------------------------
Character classes used by the serializer and the parser.
--------------------------------------------------------------------------- -/

/-- JSON insignificant whitespace (Python `json` skips space, tab, LF, CR). -/
def isWsChar (c : Char) : Bool :=
  c.toNat = 32 || c.toNat = 9 || c.toNat = 10 || c.toNat = 13

/-- ASCII decimal digit test. -/
def isDigitChr (c : Char) : Bool :=
  48 ≤ c.toNat && c.toNat ≤ 57

/-- Numeric value of an ASCII digit. -/
def digitVal (c : Char) : Nat := c.toNat - 48

/-- ASCII digit for a value below ten. -/
def digitChr (d : Nat) : Char := Char.ofNat (48 + d)

/-- Lowercase hexadecimal digit for a value below sixteen, as `"%x"` prints. -/
def hexChr (d : Nat) : Char :=
  if d < 10 then Char.ofNat (48 + d) else Char.ofNat (87 + d)

/-- Value of a hexadecimal digit; Python accepts both cases when parsing. -/
def hexVal (c : Char) : Option Nat :=
  if 48 ≤ c.toNat ∧ c.toNat ≤ 57 then some (c.toNat - 48)
  else if 97 ≤ c.toNat ∧ c.toNat ≤ 102 then some (c.toNat - 87)
  else if 65 ≤ c.toNat ∧ c.toNat ≤ 70 then some (c.toNat - 55)
  else none

/-- Opening brace character (spelled via its code point). -/
def lbrace : Char := Char.ofNat 123

/-- Closing brace character (spelled via its code point). -/
def rbrace : Char := Char.ofNat 125

/- ---------------------------------------------------------------------------
Serializer: `json.dumps` with default options.
--------------------------------------------------------------------------- -/

/-- Decimal digits of a natural number accumulated onto `acc`
(most significant first), empty for zero; `fuel`-indexed so the recursion is
structural (any `fuel ≥ n` gives the true digits, see `serNatAux_fuel`). -/
def serNatAux : Nat → Nat → List Char → List Char
  | _, 0, acc => acc
  | 0, _ + 1, acc => acc
  | fuel + 1, n + 1, acc => serNatAux fuel ((n + 1) / 10) (digitChr ((n + 1) % 10) :: acc)

/-- Decimal representation of a natural number, as Python `str`. -/
def serNat (n : Nat) : List Char :=
  if n = 0 then [ '0' ] else serNatAux n n []

/-- Decimal representation of an integer, as Python `str`. -/
def serInt (n : Int) : List Char :=
  if n < 0 then '-' :: serNat n.natAbs else serNat n.toNat

/-- Four lowercase hex digits of a value below 2^16, as `"\u%04x"` prints. -/
def hex4 (n : Nat) : List Char :=
  [hexChr (n / 4096 % 16), hexChr (n / 256 % 16), hexChr (n / 16 % 16), hexChr (n % 16)]

/-- One `\uXXXX` escape. -/
def uEsc (n : Nat) : List Char :=
  '\\' :: 'u' :: hex4 n

/-- Encoding of one character inside a JSON string literal, following
CPython `json.encoder.py_encode_basestring_ascii`: two-character escapes for
quote, backslash and the five named controls; printable ASCII verbatim;
everything else as `\uXXXX`, astral characters as a surrogate pair. -/
def encodeChar (c : Char) : List Char :=
  if c = '"' then [ '\\', '"' ]
  else if c = '\\' then [ '\\', '\\' ]
  else if c.toNat = 8 then [ '\\', 'b' ]
  else if c.toNat = 9 then [ '\\', 't' ]
  else if c.toNat = 10 then [ '\\', 'n' ]
  else if c.toNat = 12 then [ '\\', 'f' ]
  else if c.toNat = 13 then [ '\\', 'r' ]
  else if 32 ≤ c.toNat ∧ c.toNat ≤ 126 then [ c ]
  else if c.toNat < 65536 then uEsc c.toNat
  else uEsc (55296 + (c.toNat - 65536) / 1024) ++ uEsc (56320 + (c.toNat - 65536) % 1024)

/-- Encoding of a string body (without the surrounding quotes). -/
def encodeBody : List Char → List Char
  | [] => []
  | c :: rest => encodeChar c ++ encodeBody rest

/-- Serialized JSON string literal. -/
def serStr (s : String) : List Char :=
  '"' :: (encodeBody s.toList ++ [ '"' ])

mutual

/-- Serialization of a JSON value with `json.dumps` default separators
`", "` and `": "`. -/
def serValue : JsonValue → List Char
  | .null => "null".toList
  | .bool true => "true".toList
  | .bool false => "false".toList
  | .num n => serInt n
  | .str s => serStr s
  | .arr [] => [ '[', ']' ]
  | .arr (x :: xs) => '[' :: (serValue x ++ (serArrTail xs ++ [ ']' ]))
  | .obj [] => [lbrace, rbrace]
  | .obj ((k, v) :: kvs) =>
    lbrace :: (serStr k ++ ':' :: ' ' :: (serValue v ++ (serObjTail kvs ++ [rbrace])))

/-- Serialization of the remaining array elements, each preceded by `", "`. -/
def serArrTail : List JsonValue → List Char
  | [] => []
  | x :: xs => ',' :: ' ' :: (serValue x ++ serArrTail xs)

/-- Serialization of the remaining object members, each preceded by `", "`. -/
def serObjTail : List (String × JsonValue) → List Char
  | [] => []
  | (k, v) :: kvs => ',' :: ' ' :: (serStr k ++ ':' :: ' ' :: (serValue v ++ serObjTail kvs))

end

/-- Model of `json.dumps(v)` with default options. -/
def dumps (v : JsonValue) : String :=
  String.mk (serValue v)

/- ---------------------------------------------------------------------------
Parser: `json.loads`.
--------------------------------------------------------------------------- -/

/-- Skip insignificant whitespace. -/
def skipWs : List Char → List Char
  | [] => []
  | c :: rest => if isWsChar c then skipWs rest else c :: rest

/-- Consume a run of decimal digits, extending the accumulator `acc`. -/
def pDigits : List Char → Nat → Nat × List Char
  | [], acc => (acc, [])
  | c :: rest, acc =>
    if isDigitChr c then pDigits rest (10 * acc + digitVal c) else (acc, c :: rest)

/-- Resolution of a two-character escape (`\"`, `\\`, `\/`, `\b`, `\f`,
`\n`, `\r`, `\t`). -/
def escChar (c : Char) : Option Char :=
  if c = '"' then some '"'
  else if c = '\\' then some '\\'
  else if c = '/' then some '/'
  else if c = 'b' then some (Char.ofNat 8)
  else if c = 'f' then some (Char.ofNat 12)
  else if c = 'n' then some (Char.ofNat 10)
  else if c = 'r' then some (Char.ofNat 13)
  else if c = 't' then some (Char.ofNat 9)
  else none

/-- Value of four hex digits. -/
def hex4Val (a b c d : Char) : Option Nat :=
  match hexVal a, hexVal b, hexVal c, hexVal d with
  | some x, some y, some z, some w => some (4096 * x + 256 * y + 16 * z + w)
  | _, _, _, _ => none

/-- Decode the remainder of one escape sequence (the input starts right
after the backslash): either a two-character escape via `escChar`, or a
`\uXXXX` escape; a high surrogate escape must be followed by a low surrogate
escape and the pair is combined into one astral character, as CPython's
decoder does. A lone surrogate escape is rejected (CPython would keep the
surrogate code unit, which a Lean `Char` cannot carry — no claim depends on
such inputs, and the serializer never produces them). Returns the decoded
character and the unconsumed input. -/
def pEsc : List Char → Option (Char × List Char)
  | [] => none
  | e :: rest =>
    if e = 'u' then
      match rest with
      | h1 :: h2 :: h3 :: h4 :: rest3 =>
        match hex4Val h1 h2 h3 h4 with
        | some n =>
          if 55296 ≤ n ∧ n ≤ 56319 then
            match rest3 with
            | c2 :: e2 :: l1 :: l2 :: l3 :: l4 :: rest4 =>
              if c2 = '\\' ∧ e2 = 'u' then
                match hex4Val l1 l2 l3 l4 with
                | some m =>
                  if 56320 ≤ m ∧ m ≤ 57343 then
                    some (Char.ofNat (65536 + 1024 * (n - 55296) + (m - 56320)), rest4)
                  else none
                | none => none
              else none
            | _ => none
          else if 56320 ≤ n ∧ n ≤ 57343 then none
          else some (Char.ofNat n, rest3)
        | none => none
      | _ => none
    else
      match escChar e with
      | some d => some (d, rest)
      | none => none

/-- Parse the body of a JSON string literal up to (and consuming) the closing
quote; unescaped control characters are rejected as CPython's (strict-mode)
decoder does. `fuel` only bounds the recursion depth: every step consumes at
least one input character, so passing the input length makes it behave as if
unbounded (callers do exactly that). -/
def pStrBody : Nat → List Char → Option (List Char × List Char)
  | 0, _ => none
  | _ + 1, [] => none
  | fuel + 1, c :: rest =>
    if c = '"' then some ([], rest)
    else if c = '\\' then
      match pEsc rest with
      | some (d, rest2) =>
        match pStrBody fuel rest2 with
        | some (cs, r) => some (d :: cs, r)
        | none => none
      | none => none
    else if c.toNat < 32 then none
    else
      match pStrBody fuel rest with
      | some (cs, r) => some (c :: cs, r)
      | none => none

/-- Whether the input starts with the given character. -/
def headIs (c : Char) : List Char → Bool
  | [] => false
  | d :: _ => d = c

/-- The input without its first character (empty input stays empty). -/
def tailOf : List Char → List Char
  | [] => []
  | _ :: t => t

mutual

/-- Parse one JSON value (leading whitespace already skipped by the caller).
The `fuel` argument only bounds the recursion depth; `loads` supplies enough
of it for any input (see `pValue_fuel` style lemmas below). Numbers follow the
integer-only restriction of this model: a fractional part or exponent makes
the surrounding document unparseable, as does a leading-zero digit string
being accepted here that CPython would reject — no claim depends on either. -/
def pValue : Nat → List Char → Option (JsonValue × List Char)
  | 0, _ => none
  | _ + 1, [] => none
  | fuel + 1, c :: rest =>
    if c = lbrace then
      if headIs rbrace (skipWs rest) then some (.obj [], tailOf (skipWs rest))
      else pMembers fuel (skipWs rest) []
    else if c = '[' then
      if headIs ']' (skipWs rest) then some (.arr [], tailOf (skipWs rest))
      else pElems fuel (skipWs rest) []
    else if c = '"' then
      match pStrBody rest.length rest with
      | some (cs, rest2) => some (.str (String.mk cs), rest2)
      | none => none
    else if c = 'n' then
      match rest with
      | 'u' :: 'l' :: 'l' :: rest2 => some (.null, rest2)
      | _ => none
    else if c = 't' then
      match rest with
      | 'r' :: 'u' :: 'e' :: rest2 => some (.bool true, rest2)
      | _ => none
    else if c = 'f' then
      match rest with
      | 'a' :: 'l' :: 's' :: 'e' :: rest2 => some (.bool false, rest2)
      | _ => none
    else if c = '-' then
      match rest with
      | [] => none
      | d :: rest2 =>
        if isDigitChr d then
          match pDigits rest2 (digitVal d) with
          | (n, rest3) => some (.num (-(n : Int)), rest3)
        else none
    else if isDigitChr c then
      match pDigits rest (digitVal c) with
      | (n, rest2) => some (.num (n : Int), rest2)
    else none

/-- Parse the elements of a non-empty array, first element at the head of
the input (whitespace before it already skipped); `acc` holds the previously
parsed elements in reverse. -/
def pElems : Nat → List Char → List JsonValue → Option (JsonValue × List Char)
  | 0, _, _ => none
  | fuel + 1, cs, acc =>
    match pValue fuel cs with
    | some (v, rest) =>
      match skipWs rest with
      | [] => none
      | c :: rest2 =>
        if c = ',' then pElems fuel (skipWs rest2) (v :: acc)
        else if c = ']' then some (.arr (v :: acc).reverse, rest2)
        else none
    | none => none

/-- Parse the members of a non-empty object, first key at the head of the
input; `acc` is the dict built so far, extended with Python `d[k] = v`
semantics (so a duplicate key overwrites in place, last value wins). -/
def pMembers : Nat → List Char → List (String × JsonValue) → Option (JsonValue × List Char)
  | 0, _, _ => none
  | fuel + 1, cs, acc =>
    match cs with
    | [] => none
    | c :: rest =>
      if c = '"' then
        match pStrBody rest.length rest with
        | some (kcs, rest2) =>
          match skipWs rest2 with
          | [] => none
          | d :: rest3 =>
            if d = ':' then
              match pValue fuel (skipWs rest3) with
              | some (v, rest4) =>
                match skipWs rest4 with
                | [] => none
                | e2 :: rest5 =>
                  if e2 = ',' then pMembers fuel (skipWs rest5) (objSet acc (String.mk kcs) v)
                  else if e2 = rbrace then some (.obj (objSet acc (String.mk kcs) v), rest5)
                  else none
              | none => none
            else none
        | none => none
      else none

end

/-- Model of `json.loads(s)`: parse one JSON document surrounded by optional
whitespace. The fuel `2 * length + 2` dominates the recursion depth of any
parse (each two nested fuel uses consume at least one input character). -/
def loads (s : String) : Option JsonValue :=
  let cs := skipWs s.toList
  match pValue (2 * cs.length + 2) cs with
  | some (v, rest) => if skipWs rest = [] then some v else none
  | none => none

/- ---------------------------------------------------------------------------
Structural measures used to reason about the fuel-indexed parser.
--------------------------------------------------------------------------- -/

mutual

/-- Structural size of a JSON value, dominating the parser's fuel use. -/
def jsize : JsonValue → Nat
  | .arr xs => 1 + jsizeL xs
  | .obj kvs => 1 + jsizeP kvs
  | _ => 1

/-- Size of an array element list. -/
def jsizeL : List JsonValue → Nat
  | [] => 1
  | x :: xs => 1 + jsize x + jsizeL xs

/-- Size of an object member list. -/
def jsizeP : List (String × JsonValue) → Nat
  | [] => 1
  | (_, v) :: kvs => 1 + jsize v + jsizeP kvs

end

/-- Whether an association list has pairwise distinct keys (as a Python dict
always does). -/
def keysND : List (String × JsonValue) → Bool
  | [] => true
  | (k, _) :: rest => !(rest.any fun kv => kv.1 = k) && keysND rest

mutual

/-- Well-formedness of a JSON value: every object that occurs in it has
pairwise distinct keys. Every value produced by `loads` is well-formed. -/
def wfJ : JsonValue → Bool
  | .arr xs => wfL xs
  | .obj kvs => keysND kvs && wfP kvs
  | _ => true

/-- Well-formedness of an array element list. -/
def wfL : List JsonValue → Bool
  | [] => true
  | x :: xs => wfJ x && wfL xs

/-- Well-formedness of an object member list (the values). -/
def wfP : List (String × JsonValue) → Bool
  | [] => true
  | (_, v) :: kvs => wfJ v && wfP kvs

end

/-- Number of decimal digits of a natural number (zero for zero). -/
def dLen : Nat → Nat
  | 0 => 0
  | n + 1 => dLen ((n + 1) / 10) + 1
decreasing_by exact Nat.div_lt_self (Nat.succ_pos n) (by omega)

/-- Holds when the list does not start with a decimal digit, so that a
number parsed right before it cannot greedily consume into it. -/
def noDigitHead : List Char → Bool
  | [] => true
  | c :: _ => !(isDigitChr c)

/- ---------------------------------------------------------------------------
The pipeline of `main` in `put-logs.py`.
--------------------------------------------------------------------------- -/

/-- Command line as handed to `argparse`: which of the positional `file`
argument and the `--log-group` / `--log-stream` / `--region` options were
supplied, and with what values. -/
structure Args where
  file : Option String
  logGroup : Option String
  logStream : Option String
  region : Option String

/-- Result of a successful `parser.parse_args()`. -/
structure Config where
  file : String
  logGroup : String
  logStream : String
  region : Option String

/-- Model of `parser.parse_args()` for the three `add_argument` calls of the
script: the positional `file` and the `required=True` options `--log-group`
and `--log-stream` must all be present, `--region` is optional; a missing
required argument is a usage error (`argparse` prints usage and exits 2). -/
def parseArgs (a : Args) : Option Config :=
  match a.file, a.logGroup, a.logStream with
  | some f, some g, some s => some ⟨f, g, s, a.region⟩
  | _, _, _ => none

/-- How a run can fail, mirroring the exceptions `main` lets escape:
`usageError` for `argparse` exits, `ioError` for `open`, `jsonError` for
`json.loads`, `typeError` for item access on non-dict values (`TypeError` /
`AttributeError`; the spec leaves these input shapes unspecified). -/
inductive RunError where
  | usageError : RunError
  | ioError : RunError
  | jsonError : RunError
  | typeError : RunError
deriving Repr, DecidableEq

/-- Externally visible effects of a run, in order: opening the input file,
creating the boto3 session (with the explicit region, if any), and the single
`put_log_events` call with its log-group name, log-stream name and
`(message, timestamp)` event list. -/
inductive Effect where
  | fileOpen (path : String) : Effect
  | sessionCreate (region : Option String) : Effect
  | putLogEvents (group : String) (stream : String)
      (events : List (String × Int)) : Effect

/-- Model of the `isinstance(levts, dict)` wrapping: a single JSON object
becomes a one-element list, an array is used as-is. Any other shape is
unspecified behavior per the spec; iterating it in the `for` loop raises
(or, for strings, yields non-dict characters that raise in the loop body),
modelled as `typeError`. -/
def toRecords : JsonValue → Except RunError (List JsonValue)
  | .obj kvs => .ok [.obj kvs]
  | .arr xs => .ok xs
  | _ => .error .typeError

/-- One iteration of the normalization loop:
`e.get('_aws', {})['Timestamp'] = int(time.time() * 1000 - 1000)` with `ts`
the value `int(time.time() * 1000) - 1000`. If `e` has an `_aws` key holding
a dict, that dict's `Timestamp` entry is set; if `e` has no `_aws` key, the
assignment mutates the fresh `{}` default, which is dropped, so `e` is
unchanged; a non-dict `_aws` value or a non-dict record raises
(`TypeError` / `AttributeError`). -/
def normalizeRecord (ts : Int) : JsonValue → Except RunError JsonValue
  | .obj kvs =>
    match objGet kvs "_aws" with
    | some (.obj aws) =>
      .ok (.obj (objSet kvs "_aws" (.obj (objSet aws "Timestamp" (.num ts)))))
    | some _ => .error .typeError
    | none => .ok (.obj kvs)
  | _ => .error .typeError

/-- The normalization `for` loop over the record list; the `i`-th record is
stamped with the `(start + i)`-th clock reading (in milliseconds) minus one
second. -/
def normalizeAll (clock : Nat → Nat) : Nat → List JsonValue → Except RunError (List JsonValue)
  | _, [] => .ok []
  | start, e :: rest =>
    match normalizeRecord ((clock start : Int) - 1000) e with
    | .error err => .error err
    | .ok e2 =>
      match normalizeAll clock (start + 1) rest with
      | .error err => .error err
      | .ok rest2 => .ok (e2 :: rest2)

/-- The `logEvents` list comprehension: each record is re-serialized with
`json.dumps` and paired with a fresh `int(time.time() * 1000)` reading; the
`i`-th element uses the `(start + i)`-th clock reading. -/
def makeEvents (clock : Nat → Nat) : Nat → List JsonValue → List (String × Int)
  | _, [] => []
  | start, m :: rest => (dumps m, (clock (start) : Int)) :: makeEvents clock (start + 1) rest

/-- Outcome of a run: whether the process exits cleanly or with an escaping
error, plus the ordered trace of external effects it performed. -/
structure RunResult where
  outcome : Except RunError Unit
  trace : List Effect

/-- The whole of `main`, as a function of the command line, a file-system
oracle `fs` (contents of each readable path) and a clock oracle `clock`
(successive `int(time.time() * 1000)` readings, consumed left to right:
first one per record in the normalization loop, then one per record in the
event comprehension). Steps, in the script's order: `parse_args`, `open` +
`read`, `json.loads`, the dict-vs-list wrapping, the normalization loop,
`boto3.session.Session(**kwargs)`, `client('logs').put_log_events(...)`. -/
def run (a : Args) (fs : String → Option String) (clock : Nat → Nat) : RunResult :=
  match parseArgs a with
  | none => ⟨.error .usageError, []⟩
  | some cfg =>
    match fs cfg.file with
    | none => ⟨.error .ioError, [.fileOpen cfg.file]⟩
    | some contents =>
      match loads contents with
      | none => ⟨.error .jsonError, [.fileOpen cfg.file]⟩
      | some v =>
        match toRecords v with
        | .error err => ⟨.error err, [.fileOpen cfg.file]⟩
        | .ok records =>
          match normalizeAll clock 0 records with
          | .error err => ⟨.error err, [.fileOpen cfg.file]⟩
          | .ok normed =>
            ⟨.ok (), [.fileOpen cfg.file, .sessionCreate cfg.region,
              .putLogEvents cfg.logGroup cfg.logStream
                (makeEvents clock records.length normed)]⟩

/- ---------------------------------------------------------------------------
Basic lemmas about dict access and update.
--------------------------------------------------------------------------- -/

theorem objGet_objSet_same (l : List (String × JsonValue)) (k : String) (v : JsonValue) :
    objGet (objSet l k v) k = some v := by
  induction l with
  | nil => simp [objGet, objSet]
  | cons hd tl ih =>
    obtain ⟨k0, v0⟩ := hd
    by_cases h : k0 = k
    · simp [objGet, objSet, h]
    · simp [objGet, objSet, h, ih]

theorem objGet_objSet_other (l : List (String × JsonValue)) (k k2 : String) (v : JsonValue)
    (hne : k2 ≠ k) : objGet (objSet l k v) k2 = objGet l k2 := by
  induction l with
  | nil => simp [objGet, objSet, Ne.symm hne]
  | cons hd tl ih =>
    obtain ⟨k0, v0⟩ := hd
    by_cases h : k0 = k
    · subst h
      simp [objGet, objSet, Ne.symm hne]
    · by_cases h2 : k0 = k2 <;> simp [objGet, objSet, h, h2, ih, hne]

/- ---------------------------------------------------------------------------
Basic lemmas about the normalization loop and the event list.
--------------------------------------------------------------------------- -/

theorem normalizeAll_spec (clock : Nat → Nat) :
    ∀ (ms : List JsonValue) (start : Nat) (ms2 : List JsonValue),
    normalizeAll clock start ms = .ok ms2 →
    ms2.length = ms.length ∧
      (∀ j e, ms[j]? = some e → ∃ e2, ms2[j]? = some e2 ∧
        normalizeRecord ((clock (start + j) : Int) - 1000) e = .ok e2) ∧
      (∀ j e2, ms2[j]? = some e2 → ∃ e, ms[j]? = some e ∧
        normalizeRecord ((clock (start + j) : Int) - 1000) e = .ok e2) := by
  intro ms
  induction ms with
  | nil =>
    intro start ms2 h
    simp [normalizeAll] at h
    subst h
    simp
  | cons e rest ih =>
    intro start ms2 h
    simp only [normalizeAll] at h
    cases he : normalizeRecord ((clock start : Int) - 1000) e with
    | error err => rw [he] at h; cases h
    | ok e2h =>
      rw [he] at h
      cases hr : normalizeAll clock (start + 1) rest with
      | error err => rw [hr] at h; cases h
      | ok rest2 =>
        rw [hr] at h
        cases h
        obtain ⟨ihlen, ihfwd, ihbwd⟩ := ih (start + 1) rest2 hr
        refine ⟨by simp [ihlen], ?_, ?_⟩
        · intro j e0 hj
          cases j with
          | zero =>
            simp at hj
            subst hj
            exact ⟨e2h, by simp, by simpa using he⟩
          | succ j0 =>
            simp at hj
            obtain ⟨e2, h1, h2⟩ := ihfwd j0 e0 (by simpa using hj)
            refine ⟨e2, by simpa using h1, ?_⟩
            have harith : start + 1 + j0 = start + (j0 + 1) := by omega
            rw [← harith]
            exact h2
        · intro j e0 hj
          cases j with
          | zero =>
            simp at hj
            subst hj
            exact ⟨e, by simp, by simpa using he⟩
          | succ j0 =>
            simp at hj
            obtain ⟨e1, h1, h2⟩ := ihbwd j0 e0 (by simpa using hj)
            refine ⟨e1, by simpa using h1, ?_⟩
            have harith : start + 1 + j0 = start + (j0 + 1) := by omega
            rw [← harith]
            exact h2

theorem makeEvents_length (clock : Nat → Nat) :
    ∀ (ms : List JsonValue) (start : Nat), (makeEvents clock start ms).length = ms.length := by
  intro ms
  induction ms with
  | nil => intro start; simp [makeEvents]
  | cons m rest ih => intro start; simp [makeEvents, ih]

theorem makeEvents_get (clock : Nat → Nat) :
    ∀ (ms : List JsonValue) (start j : Nat),
    (makeEvents clock start ms)[j]? =
      (ms[j]?).map (fun m => (dumps m, (clock (start + j) : Int))) := by
  intro ms
  induction ms with
  | nil => intro start j; simp [makeEvents]
  | cons m rest ih =>
    intro start j
    cases j with
    | zero => simp [makeEvents]
    | succ j0 =>
      simp only [makeEvents, List.getElem?_cons_succ, ih rest.length]
      have harith : start + 1 + j0 = start + (j0 + 1) := by omega
      rw [ih (start + 1) j0, harith]

/-- Unfolding of `run` on the success path: with arguments parsed, the file
readable, its contents valid JSON of record shape and every record
normalizable, the run succeeds and performs exactly the three effects, the
last being the single `put_log_events` call. -/
theorem run_success (a : Args) (cfg : Config) (fs : String → Option String)
    (clock : Nat → Nat) (content : String) (v : JsonValue) (ms ms2 : List JsonValue)
    (hargs : parseArgs a = some cfg)
    (hfs : fs cfg.file = some content)
    (hload : loads content = some v)
    (hrec : toRecords v = .ok ms)
    (hnorm : normalizeAll clock 0 ms = .ok ms2) :
    run a fs clock = ⟨.ok (), [.fileOpen cfg.file, .sessionCreate cfg.region,
      .putLogEvents cfg.logGroup cfg.logStream (makeEvents clock ms.length ms2)]⟩ := by
  simp only [run, hargs, hfs, hload, hrec, hnorm]

/- ---------------------------------------------------------------------------
Claims about the CLI front end and the failure paths.
--------------------------------------------------------------------------- -/

/-- C6: when the positional file argument or a required option
(`--log-group`, `--log-stream`) is missing, the run exits with a usage error
and an empty effect trace — in particular the input file is never opened and
no file I/O happens. -/
theorem claim6_missing_arg_usage_error (a : Args) (fs : String → Option String)
    (clock : Nat → Nat)
    (h : a.file = none ∨ a.logGroup = none ∨ a.logStream = none) :
    run a fs clock = ⟨.error .usageError, []⟩ := by
  have hp : parseArgs a = none := by
    obtain ⟨f, g, s, r⟩ := a
    rcases h with h | h | h
    · simp only at h
      subst h
      cases g <;> cases s <;> rfl
    · simp only at h
      subst h
      cases f <;> cases s <;> rfl
    · simp only at h
      subst h
      cases f <;> cases g <;> rfl
  simp only [run, hp]

theorem claim6_witness :
    run ⟨some "recs.json", none, some "TestLogStream", none⟩
      (fun _ => some "[]") (fun _ => 1700000000000) = ⟨.error .usageError, []⟩ :=
  claim6_missing_arg_usage_error _ _ _ (Or.inr (Or.inl rfl))

/-- C7: if the input file is missing/unreadable, or its contents fail to
parse as JSON, the run exits with the corresponding propagated error having
touched only the file: no boto3 session is created and no `put_log_events`
call appears in the trace. -/
theorem claim7_load_failure_no_network (a : Args) (cfg : Config)
    (fs : String → Option String) (clock : Nat → Nat)
    (hargs : parseArgs a = some cfg)
    (h : fs cfg.file = none ∨ ∃ c, fs cfg.file = some c ∧ loads c = none) :
    (run a fs clock = ⟨.error .ioError, [.fileOpen cfg.file]⟩ ∨
     run a fs clock = ⟨.error .jsonError, [.fileOpen cfg.file]⟩) ∧
    (∀ r, Effect.sessionCreate r ∉ (run a fs clock).trace) ∧
    (∀ g s evs, Effect.putLogEvents g s evs ∉ (run a fs clock).trace) := by
  rcases h with h | ⟨c, hc, hl⟩
  · have hrun : run a fs clock = ⟨.error .ioError, [.fileOpen cfg.file]⟩ := by
      simp only [run, hargs, h]
    rw [hrun]
    exact ⟨Or.inl rfl, by simp, by simp⟩
  · have hrun : run a fs clock = ⟨.error .jsonError, [.fileOpen cfg.file]⟩ := by
      simp only [run, hargs, hc, hl]
    rw [hrun]
    exact ⟨Or.inr rfl, by simp, by simp⟩

theorem claim7_witness :
    run ⟨some "recs.json", some "TestLogGroup", some "TestLogStream", none⟩
        (fun _ => none) (fun _ => 1700000000000) =
      ⟨.error .ioError, [.fileOpen "recs.json"]⟩ ∨
    run ⟨some "recs.json", some "TestLogGroup", some "TestLogStream", none⟩
        (fun _ => none) (fun _ => 1700000000000) =
      ⟨.error .jsonError, [.fileOpen "recs.json"]⟩ :=
  (claim7_load_failure_no_network
    ⟨some "recs.json", some "TestLogGroup", some "TestLogStream", none⟩
    ⟨"recs.json", "TestLogGroup", "TestLogStream", none⟩
    (fun _ => none) (fun _ => 1700000000000) rfl (Or.inl rfl)).1

/-- C4: an input file holding a single JSON object is treated exactly like an
input file holding the one-element array of that object — the two runs are
equal in outcome and in the full effect trace. -/
theorem claim4_object_singleton_equiv (a : Args) (cfg : Config)
    (fs1 fs2 : String → Option String) (clock : Nat → Nat)
    (c1 c2 : String) (kvs : List (String × JsonValue))
    (hargs : parseArgs a = some cfg)
    (h1 : fs1 cfg.file = some c1) (h2 : fs2 cfg.file = some c2)
    (hl1 : loads c1 = some (.obj kvs)) (hl2 : loads c2 = some (.arr [.obj kvs])) :
    run a fs1 clock = run a fs2 clock := by
  simp only [run, hargs, h1, h2, hl1, hl2, toRecords]

theorem claim4_witness :
    run ⟨some "recs.json", some "TestLogGroup", some "TestLogStream", none⟩
      (fun _ => some (dumps (.obj [("label", .str "v"), ("my_counter", .num 1)])))
      (fun i => 1700000000000 + i) =
    run ⟨some "recs.json", some "TestLogGroup", some "TestLogStream", none⟩
      (fun _ => some (dumps (.arr [.obj [("label", .str "v"), ("my_counter", .num 1)]])))
      (fun i => 1700000000000 + i) :=
  claim4_object_singleton_equiv _ ⟨"recs.json", "TestLogGroup", "TestLogStream", none⟩
    _ _ _ _ _ [("label", .str "v"), ("my_counter", .num 1)] rfl rfl rfl rfl rfl

/-- C10: the run is a deterministic function of its inputs — with the same
argument vector, the same contents at the named input file and the same
sequence of clock readings, two runs are identical, in particular the log
group, log stream and ordered `(message, timestamp)` list handed to
`put_log_events` coincide. -/
theorem claim10_deterministic (a : Args) (cfg : Config)
    (fs1 fs2 : String → Option String) (clock1 clock2 : Nat → Nat)
    (hargs : parseArgs a = some cfg)
    (hfs : fs1 cfg.file = fs2 cfg.file)
    (hclock : ∀ i, clock1 i = clock2 i) :
    run a fs1 clock1 = run a fs2 clock2 := by
  have hc : clock1 = clock2 := funext hclock
  subst hc
  simp only [run, hargs, hfs]

theorem claim10_witness :
    run ⟨some "recs.json", some "TestLogGroup", some "TestLogStream", some "us-east-1"⟩
      (fun _ => some "[1]") (fun i => 1700000000000 + i) =
    run ⟨some "recs.json", some "TestLogGroup", some "TestLogStream", some "us-east-1"⟩
      (fun p => if p = "recs.json" then some "[1]" else none)
      (fun i => i + 1700000000000) :=
  claim10_deterministic _ ⟨"recs.json", "TestLogGroup", "TestLogStream", some "us-east-1"⟩
    _ _ _ _ rfl rfl (fun i => by omega)

/- ---------------------------------------------------------------------------
Claims about the timestamp normalization step.
--------------------------------------------------------------------------- -/

/-- C1 counterexample: the claim says that after normalization EVERY record's
`_aws` Timestamp field equals `T - 1000`; but for the record `\x7b\x7d`
(no `_aws` key) the assignment goes into the discarded `e.get('_aws', {})`
default, normalization returns the record unchanged, and the record has no
`_aws` mapping — hence no Timestamp field — at all. -/
theorem claim1_counterexample :
    normalizeAll (fun _ => 1700000000000) 0 [JsonValue.obj []] = .ok [JsonValue.obj []] ∧
    objGet ([] : List (String × JsonValue)) "_aws" = none :=
  ⟨rfl, rfl⟩

/-- C1 (amended): for every record of the loaded sequence whose `_aws` key is
present and holds a mapping, normalization sets that mapping's `Timestamp`
field to `T - 1000`, where `T` is the clock reading (epoch milliseconds)
taken at the moment that record is normalized; records without `_aws` are
left unchanged (see C2). -/
theorem claim1_amended_timestamp (clock : Nat → Nat) (start j : Nat)
    (ms ms2 : List JsonValue) (kvs aws : List (String × JsonValue))
    (hnorm : normalizeAll clock start ms = .ok ms2)
    (hj : ms[j]? = some (.obj kvs))
    (haws : objGet kvs "_aws" = some (.obj aws)) :
    ∃ kvs2 aws2, ms2[j]? = some (.obj kvs2) ∧
      objGet kvs2 "_aws" = some (.obj aws2) ∧
      objGet aws2 "Timestamp" = some (.num ((clock (start + j) : Int) - 1000)) := by
  obtain ⟨-, hfwd, -⟩ := normalizeAll_spec clock ms start ms2 hnorm
  obtain ⟨e2, hj2, hrec⟩ := hfwd j _ hj
  simp only [normalizeRecord, haws] at hrec
  cases hrec
  exact ⟨_, _, hj2, objGet_objSet_same _ _ _, objGet_objSet_same _ _ _⟩

theorem claim1_amended_witness :
    ∃ kvs2 aws2,
      [JsonValue.obj [("_aws", JsonValue.obj [("Timestamp", JsonValue.num 1699999999000)]),
          ("label", JsonValue.str "v")]][0]? = some (.obj kvs2) ∧
      objGet kvs2 "_aws" = some (.obj aws2) ∧
      objGet aws2 "Timestamp" = some (.num 1699999999000) :=
  claim1_amended_timestamp (fun _ => 1700000000000) 0 0
    [.obj [("_aws", .obj []), ("label", .str "v")]]
    [.obj [("_aws", .obj [("Timestamp", .num 1699999999000)]), ("label", .str "v")]]
    [("_aws", .obj []), ("label", .str "v")] [] rfl rfl rfl

/-- C2: a record with no `_aws` key passes through normalization completely
unchanged (the defaulted `{}` receives the Timestamp write and is dropped),
and the message later uploaded for it is the serialization of that unchanged
record — which, per the hypothesis, has no `_aws` entry and hence no
timestamp field. -/
theorem claim2_missing_aws_untouched (a : Args) (cfg : Config)
    (fs : String → Option String) (clock : Nat → Nat) (content : String)
    (v : JsonValue) (ms ms2 : List JsonValue) (j : Nat) (kvs : List (String × JsonValue))
    (hargs : parseArgs a = some cfg)
    (hfs : fs cfg.file = some content)
    (hload : loads content = some v)
    (hrec : toRecords v = .ok ms)
    (hnorm : normalizeAll clock 0 ms = .ok ms2)
    (hj : ms[j]? = some (.obj kvs))
    (haws : objGet kvs "_aws" = none) :
    ms2[j]? = some (.obj kvs) ∧
    ∃ events, (run a fs clock).trace = [.fileOpen cfg.file, .sessionCreate cfg.region,
        .putLogEvents cfg.logGroup cfg.logStream events] ∧
      events[j]? = some (dumps (.obj kvs), (clock (ms.length + j) : Int)) := by
  obtain ⟨-, hfwd, -⟩ := normalizeAll_spec clock ms 0 ms2 hnorm
  obtain ⟨e2, hj2, hrec2⟩ := hfwd j _ hj
  simp only [normalizeRecord, haws] at hrec2
  cases hrec2
  refine ⟨hj2, makeEvents clock ms.length ms2, ?_, ?_⟩
  · rw [run_success a cfg fs clock content v ms ms2 hargs hfs hload hrec hnorm]
  · rw [makeEvents_get, hj2]
    rfl

theorem claim2_witness :
    [JsonValue.obj [("my_counter", JsonValue.num 3)]][0]? =
      some (.obj [("my_counter", JsonValue.num 3)]) ∧
    ∃ events,
      (run ⟨some "recs.json", some "TestLogGroup", some "TestLogStream", none⟩
        (fun _ => some (dumps (.arr [.obj [("my_counter", .num 3)]])))
        (fun i => 1700000000000 + i)).trace =
        [.fileOpen "recs.json", .sessionCreate none,
         .putLogEvents "TestLogGroup" "TestLogStream" events] ∧
      events[0]? = some (dumps (.obj [("my_counter", .num 3)]), 1700000000001) :=
  claim2_missing_aws_untouched
    ⟨some "recs.json", some "TestLogGroup", some "TestLogStream", none⟩
    ⟨"recs.json", "TestLogGroup", "TestLogStream", none⟩
    (fun _ => some (dumps (.arr [.obj [("my_counter", .num 3)]])))
    (fun i => 1700000000000 + i)
    (dumps (.arr [.obj [("my_counter", .num 3)]]))
    (.arr [.obj [("my_counter", .num 3)]])
    [.obj [("my_counter", .num 3)]] [.obj [("my_counter", .num 3)]]
    0 [("my_counter", .num 3)]
    rfl rfl rfl rfl rfl rfl rfl

/-- C9 (frame property): on a record whose `_aws` key holds a mapping,
normalization changes only that mapping's `Timestamp` entry — every
top-level key other than `_aws` reads the same as before, and every `_aws`
entry other than `Timestamp` reads the same as before. -/
theorem claim9_only_timestamp_changed (ts : Int) (kvs aws : List (String × JsonValue))
    (haws : objGet kvs "_aws" = some (.obj aws)) :
    ∃ kvs2 aws2, normalizeRecord ts (.obj kvs) = .ok (.obj kvs2) ∧
      objGet kvs2 "_aws" = some (.obj aws2) ∧
      (∀ k, k ≠ "_aws" → objGet kvs2 k = objGet kvs k) ∧
      (∀ k, k ≠ "Timestamp" → objGet aws2 k = objGet aws k) ∧
      objGet aws2 "Timestamp" = some (.num ts) := by
  refine ⟨objSet kvs "_aws" (.obj (objSet aws "Timestamp" (.num ts))),
    objSet aws "Timestamp" (.num ts), ?_, objGet_objSet_same _ _ _,
    ?_, ?_, objGet_objSet_same _ _ _⟩
  · simp only [normalizeRecord, haws]
  · intro k hk
    exact objGet_objSet_other _ _ _ _ hk
  · intro k hk
    exact objGet_objSet_other _ _ _ _ hk

theorem claim9_witness :
    ∃ kvs2 aws2,
      normalizeRecord 1699999999000
          (JsonValue.obj [("_aws", JsonValue.obj [("CloudWatchMetrics", JsonValue.arr []),
            ("Timestamp", JsonValue.num 1)]), ("label", JsonValue.str "v")]) =
        .ok (.obj kvs2) ∧
      objGet kvs2 "_aws" = some (.obj aws2) ∧
      objGet kvs2 "label" = some (JsonValue.str "v") ∧
      objGet aws2 "CloudWatchMetrics" = some (JsonValue.arr []) ∧
      objGet aws2 "Timestamp" = some (.num 1699999999000) := by
  obtain ⟨kvs2, aws2, h1, h2, h3, h4, h5⟩ :=
    claim9_only_timestamp_changed 1699999999000
      [("_aws", .obj [("CloudWatchMetrics", .arr []), ("Timestamp", .num 1)]),
        ("label", .str "v")]
      [("CloudWatchMetrics", .arr []), ("Timestamp", .num 1)] rfl
  refine ⟨kvs2, aws2, h1, h2, ?_, ?_, h5⟩
  · rw [h3 "label" (by decide)]
    rfl
  · rw [h4 "CloudWatchMetrics" (by decide)]
    rfl

/- ---------------------------------------------------------------------------
Claims about the upload stage.
--------------------------------------------------------------------------- -/

/-- C3: a successful run performs exactly one `put_log_events` call (the
trace holds exactly one such effect), whose event list has exactly one entry
per loaded record, in input order: the `j`-th event is the `j`-th normalized
record serialized with `json.dumps`, stamped with its own fresh clock
reading. -/
theorem claim3_single_put_call (a : Args) (cfg : Config)
    (fs : String → Option String) (clock : Nat → Nat) (content : String)
    (v : JsonValue) (ms ms2 : List JsonValue)
    (hargs : parseArgs a = some cfg)
    (hfs : fs cfg.file = some content)
    (hload : loads content = some v)
    (hrec : toRecords v = .ok ms)
    (hnorm : normalizeAll clock 0 ms = .ok ms2) :
    run a fs clock = ⟨.ok (), [.fileOpen cfg.file, .sessionCreate cfg.region,
      .putLogEvents cfg.logGroup cfg.logStream (makeEvents clock ms.length ms2)]⟩ ∧
    (makeEvents clock ms.length ms2).length = ms.length ∧
    ∀ j, (makeEvents clock ms.length ms2)[j]? =
      (ms2[j]?).map (fun m => (dumps m, (clock (ms.length + j) : Int))) := by
  refine ⟨run_success a cfg fs clock content v ms ms2 hargs hfs hload hrec hnorm, ?_, ?_⟩
  · rw [makeEvents_length, (normalizeAll_spec clock ms 0 ms2 hnorm).1]
  · intro j
    exact makeEvents_get clock ms2 ms.length j

theorem claim3_witness :
    run ⟨some "recs.json", some "TestLogGroup", some "TestLogStream", none⟩
      (fun _ => some (dumps (.arr
        [.obj [("_aws", .obj [("Timestamp", .num 1)]), ("my_counter", .num 2)],
         .obj [("_aws", .obj [("Timestamp", .num 1)]), ("my_counter", .num 3)]])))
      (fun i => 1700000000000 + i) =
    ⟨.ok (), [.fileOpen "recs.json", .sessionCreate none,
      .putLogEvents "TestLogGroup" "TestLogStream"
        [(dumps (.obj [("_aws", .obj [("Timestamp", .num 1699999999000)]),
            ("my_counter", .num 2)]), 1700000000002),
         (dumps (.obj [("_aws", .obj [("Timestamp", .num 1699999999001)]),
            ("my_counter", .num 3)]), 1700000000003)]]⟩ :=
  (claim3_single_put_call
    ⟨some "recs.json", some "TestLogGroup", some "TestLogStream", none⟩
    ⟨"recs.json", "TestLogGroup", "TestLogStream", none⟩
    (fun _ => some (dumps (.arr
      [.obj [("_aws", .obj [("Timestamp", .num 1)]), ("my_counter", .num 2)],
       .obj [("_aws", .obj [("Timestamp", .num 1)]), ("my_counter", .num 3)]])))
    (fun i => 1700000000000 + i)
    (dumps (.arr
      [.obj [("_aws", .obj [("Timestamp", .num 1)]), ("my_counter", .num 2)],
       .obj [("_aws", .obj [("Timestamp", .num 1)]), ("my_counter", .num 3)]]))
    (.arr [.obj [("_aws", .obj [("Timestamp", .num 1)]), ("my_counter", .num 2)],
           .obj [("_aws", .obj [("Timestamp", .num 1)]), ("my_counter", .num 3)]])
    [.obj [("_aws", .obj [("Timestamp", .num 1)]), ("my_counter", .num 2)],
     .obj [("_aws", .obj [("Timestamp", .num 1)]), ("my_counter", .num 3)]]
    [.obj [("_aws", .obj [("Timestamp", .num 1699999999000)]), ("my_counter", .num 2)],
     .obj [("_aws", .obj [("Timestamp", .num 1699999999001)]), ("my_counter", .num 3)]]
    rfl rfl rfl rfl rfl).1

/-- C5: under a non-decreasing clock, every upload event's top-level
timestamp (taken at serialization time) is at least the normalized `_aws`
Timestamp stored inside the corresponding record (set earlier to a clock
reading minus one second). -/
theorem claim5_event_ts_ge_record_ts (clock : Nat → Nat) (ms ms2 : List JsonValue)
    (j : Nat) (kvs2 aws2 : List (String × JsonValue)) (ts evTs : Int) (msg : String)
    (hmono : ∀ x y, x ≤ y → clock x ≤ clock y)
    (hnorm : normalizeAll clock 0 ms = .ok ms2)
    (hj : ms2[j]? = some (.obj kvs2))
    (haws : objGet kvs2 "_aws" = some (.obj aws2))
    (hts : objGet aws2 "Timestamp" = some (.num ts))
    (hev : (makeEvents clock ms.length ms2)[j]? = some (msg, evTs)) :
    ts ≤ evTs := by
  obtain ⟨-, -, hbwd⟩ := normalizeAll_spec clock ms 0 ms2 hnorm
  obtain ⟨e, hje, hrec⟩ := hbwd j _ hj
  rw [makeEvents_get, hj] at hev
  have hev2 : (dumps (JsonValue.obj kvs2), (clock (ms.length + j) : Int)) = (msg, evTs) :=
    Option.some.inj hev
  have hevTs : evTs = (clock (ms.length + j) : Int) := (congrArg Prod.snd hev2).symm
  cases e with
  | obj kvs0 =>
    cases hg : objGet kvs0 "_aws" with
    | none =>
      simp only [normalizeRecord, hg] at hrec
      cases hrec
      rw [hg] at haws
      cases haws
    | some w =>
      cases w with
      | obj aws0 =>
        simp only [normalizeRecord, hg] at hrec
        cases hrec
        rw [objGet_objSet_same] at haws
        cases haws
        rw [objGet_objSet_same] at hts
        cases hts
        have hle : clock (0 + j) ≤ clock (ms.length + j) := hmono _ _ (by omega)
        omega
      | null =>
        simp only [normalizeRecord, hg] at hrec
        cases hrec
      | bool b =>
        simp only [normalizeRecord, hg] at hrec
        cases hrec
      | num n =>
        simp only [normalizeRecord, hg] at hrec
        cases hrec
      | str s =>
        simp only [normalizeRecord, hg] at hrec
        cases hrec
      | arr xs =>
        simp only [normalizeRecord, hg] at hrec
        cases hrec
  | null =>
    simp only [normalizeRecord] at hrec
    cases hrec
  | bool b =>
    simp only [normalizeRecord] at hrec
    cases hrec
  | num n =>
    simp only [normalizeRecord] at hrec
    cases hrec
  | str s =>
    simp only [normalizeRecord] at hrec
    cases hrec
  | arr xs =>
    simp only [normalizeRecord] at hrec
    cases hrec

theorem claim5_witness : (1699999999000 : Int) ≤ 1700000000001 :=
  claim5_event_ts_ge_record_ts (fun i => 1700000000000 + i)
    [.obj [("_aws", .obj [("Timestamp", .num 1)])]]
    [.obj [("_aws", .obj [("Timestamp", .num 1699999999000)])]]
    0 [("_aws", .obj [("Timestamp", .num 1699999999000)])]
    [("Timestamp", .num 1699999999000)]
    1699999999000 1700000000001
    (dumps (.obj [("_aws", .obj [("Timestamp", .num 1699999999000)])]))
    (fun x y h => by
      show 1700000000000 + x ≤ 1700000000000 + y
      omega) rfl rfl rfl rfl rfl

/- ---------------------------------------------------------------------------
Round trip of the serializer and the parser: character and digit lemmas.
--------------------------------------------------------------------------- -/

theorem char_ne_of_toNat_ne (c d : Char) (h : c.toNat ≠ d.toNat) : c ≠ d :=
  fun he => h (congrArg Char.toNat he)

theorem char_valid_range (c : Char) :
    c.toNat < 55296 ∨ (57343 < c.toNat ∧ c.toNat < 1114112) := by
  have h := c.valid
  simp only [UInt32.isValidChar, Nat.isValidChar] at h
  have he : c.toNat = c.val.toNat := rfl
  omega

theorem digitChr_isDigit : ∀ d, d < 10 → isDigitChr (digitChr d) = true := by decide

theorem digitChr_val : ∀ d, d < 10 → digitVal (digitChr d) = d := by decide

theorem digitChr_toNat : ∀ d, d < 10 → (digitChr d).toNat = 48 + d := by decide

theorem isDigitChr_toNat (c : Char) (h : isDigitChr c = true) :
    48 ≤ c.toNat ∧ c.toNat ≤ 57 := by
  simp only [isDigitChr, Bool.and_eq_true, decide_eq_true_eq] at h
  omega

theorem hexVal_hexChr : ∀ d, d < 16 → hexVal (hexChr d) = some d := by decide

theorem hex4Val_hex4 (n : Nat) (h : n < 65536) :
    hex4Val (hexChr (n / 4096 % 16)) (hexChr (n / 256 % 16))
      (hexChr (n / 16 % 16)) (hexChr (n % 16)) = some n := by
  rw [hex4Val, hexVal_hexChr _ (by omega), hexVal_hexChr _ (by omega),
    hexVal_hexChr _ (by omega), hexVal_hexChr _ (by omega)]
  show some (4096 * (n / 4096 % 16) + 256 * (n / 256 % 16) + 16 * (n / 16 % 16) + n % 16) =
    some n
  congr 1
  omega

/- ---------------------------------------------------------------------------
One-step unfolding lemmas for the string-body parser.
--------------------------------------------------------------------------- -/
theorem pStrBody_quote (fuel : Nat) (tail : List Char) :
    pStrBody (fuel + 1) ('"' :: tail) = some ([], tail) := by
  simp only [pStrBody, if_pos rfl]
  simp

theorem pStrBody_plain (fuel : Nat) (c : Char) (tail : List Char)
    (hq : c ≠ '"') (hb : c ≠ '\\') (h32 : ¬c.toNat < 32) :
    pStrBody (fuel + 1) (c :: tail) =
      Option.map (fun p => (c :: p.1, p.2)) (pStrBody fuel tail) := by
  simp only [pStrBody, if_neg hq, if_neg hb, if_neg h32]
  cases hres : pStrBody fuel tail with
  | none => rfl
  | some p => obtain ⟨cs, r⟩ := p; rfl

theorem pStrBody_esc (fuel : Nat) (d : Char) (body tail : List Char)
    (he : pEsc body = some (d, tail)) :
    pStrBody (fuel + 1) ('\\' :: body) =
      Option.map (fun p => (d :: p.1, p.2)) (pStrBody fuel tail) := by
  simp only [pStrBody, if_neg (show ('\\' : Char) ≠ '"' by decide), if_pos rfl, he]
  cases hres : pStrBody fuel tail with
  | none => rfl
  | some p => obtain ⟨cs, r⟩ := p; rfl

theorem pEsc_short (e d : Char) (tail : List Char)
    (hu : e ≠ 'u') (he : escChar e = some d) :
    pEsc (e :: tail) = some (d, tail) := by
  simp only [pEsc, if_neg hu, he]

theorem pEsc_uesc (n : Nat) (tail : List Char)
    (hn : n < 65536) (hs1 : ¬(55296 ≤ n ∧ n ≤ 56319)) (hs2 : ¬(56320 ≤ n ∧ n ≤ 57343)) :
    pEsc ('u' :: hexChr (n / 4096 % 16) :: hexChr (n / 256 % 16) ::
        hexChr (n / 16 % 16) :: hexChr (n % 16) :: tail) =
      some (Char.ofNat n, tail) := by
  simp only [pEsc, if_pos rfl, hex4Val_hex4 n hn, if_neg hs1, if_neg hs2]
  simp

theorem pEsc_surrogates (hi lo : Nat) (tail : List Char)
    (hhi1 : 55296 ≤ hi) (hhi2 : hi ≤ 56319) (hlo1 : 56320 ≤ lo) (hlo2 : lo ≤ 57343) :
    pEsc ('u' :: hexChr (hi / 4096 % 16) :: hexChr (hi / 256 % 16) ::
        hexChr (hi / 16 % 16) :: hexChr (hi % 16) ::
        '\\' :: 'u' :: hexChr (lo / 4096 % 16) :: hexChr (lo / 256 % 16) ::
        hexChr (lo / 16 % 16) :: hexChr (lo % 16) :: tail) =
      some (Char.ofNat (65536 + 1024 * (hi - 55296) + (lo - 56320)), tail) := by
  simp only [pEsc, if_pos rfl, hex4Val_hex4 hi (by omega), hex4Val_hex4 lo (by omega),
    if_pos (show 55296 ≤ hi ∧ hi ≤ 56319 from ⟨hhi1, hhi2⟩),
    if_pos (show ('\\' : Char) = '\\' ∧ ('u' : Char) = 'u' from ⟨rfl, rfl⟩),
    if_pos (show 56320 ≤ lo ∧ lo ≤ 57343 from ⟨hlo1, hlo2⟩)]
  simp

theorem pStrBody_encodeChar (fuel : Nat) (c : Char) (tail : List Char) :
    pStrBody (fuel + 1) (encodeChar c ++ tail) =
      Option.map (fun p => (c :: p.1, p.2)) (pStrBody fuel tail) := by
  by_cases hq : c = '"'
  · subst hq
    rw [show encodeChar '"' = [ '\\', '"' ] from by decide, List.cons_append,
      List.cons_append, List.nil_append,
      pStrBody_esc fuel '"' ('"' :: tail) tail
        (pEsc_short '"' '"' tail (by decide) (by decide))]
  by_cases hb : c = '\\'
  · subst hb
    rw [show encodeChar '\\' = [ '\\', '\\' ] from by decide, List.cons_append,
      List.cons_append, List.nil_append,
      pStrBody_esc fuel '\\' ('\\' :: tail) tail
        (pEsc_short '\\' '\\' tail (by decide) (by decide))]
  by_cases h8 : c.toNat = 8
  · have hc : c = Char.ofNat 8 := by rw [← Char.ofNat_toNat c, h8]
    subst hc
    rw [show encodeChar (Char.ofNat 8) = [ '\\', 'b' ] from by decide, List.cons_append,
      List.cons_append, List.nil_append,
      pStrBody_esc fuel (Char.ofNat 8) ('b' :: tail) tail
        (pEsc_short 'b' (Char.ofNat 8) tail (by decide) (by decide))]
  by_cases h9 : c.toNat = 9
  · have hc : c = Char.ofNat 9 := by rw [← Char.ofNat_toNat c, h9]
    subst hc
    rw [show encodeChar (Char.ofNat 9) = [ '\\', 't' ] from by decide, List.cons_append,
      List.cons_append, List.nil_append,
      pStrBody_esc fuel (Char.ofNat 9) ('t' :: tail) tail
        (pEsc_short 't' (Char.ofNat 9) tail (by decide) (by decide))]
  by_cases h10 : c.toNat = 10
  · have hc : c = Char.ofNat 10 := by rw [← Char.ofNat_toNat c, h10]
    subst hc
    rw [show encodeChar (Char.ofNat 10) = [ '\\', 'n' ] from by decide, List.cons_append,
      List.cons_append, List.nil_append,
      pStrBody_esc fuel (Char.ofNat 10) ('n' :: tail) tail
        (pEsc_short 'n' (Char.ofNat 10) tail (by decide) (by decide))]
  by_cases h12 : c.toNat = 12
  · have hc : c = Char.ofNat 12 := by rw [← Char.ofNat_toNat c, h12]
    subst hc
    rw [show encodeChar (Char.ofNat 12) = [ '\\', 'f' ] from by decide, List.cons_append,
      List.cons_append, List.nil_append,
      pStrBody_esc fuel (Char.ofNat 12) ('f' :: tail) tail
        (pEsc_short 'f' (Char.ofNat 12) tail (by decide) (by decide))]
  by_cases h13 : c.toNat = 13
  · have hc : c = Char.ofNat 13 := by rw [← Char.ofNat_toNat c, h13]
    subst hc
    rw [show encodeChar (Char.ofNat 13) = [ '\\', 'r' ] from by decide, List.cons_append,
      List.cons_append, List.nil_append,
      pStrBody_esc fuel (Char.ofNat 13) ('r' :: tail) tail
        (pEsc_short 'r' (Char.ofNat 13) tail (by decide) (by decide))]
  by_cases hp : 32 ≤ c.toNat ∧ c.toNat ≤ 126
  · rw [show encodeChar c = [ c ] from by
      simp only [encodeChar, if_neg hq, if_neg hb, if_neg h8, if_neg h9, if_neg h10,
        if_neg h12, if_neg h13, if_pos hp], List.cons_append, List.nil_append]
    exact pStrBody_plain fuel c tail hq hb (by omega)
  by_cases hlt : c.toNat < 65536
  · have hval := char_valid_range c
    rw [show encodeChar c = uEsc c.toNat from by
      simp only [encodeChar, if_neg hq, if_neg hb, if_neg h8, if_neg h9, if_neg h10,
        if_neg h12, if_neg h13, if_neg hp, if_pos hlt]]
    simp only [uEsc, hex4, List.cons_append, List.nil_append]
    rw [pStrBody_esc fuel (Char.ofNat c.toNat) _ tail
      (pEsc_uesc c.toNat tail hlt (by omega) (by omega)), Char.ofNat_toNat]
  · have hval := char_valid_range c
    have hub : c.toNat < 1114112 := by omega
    rw [show encodeChar c =
        uEsc (55296 + (c.toNat - 65536) / 1024) ++ uEsc (56320 + (c.toNat - 65536) % 1024) from by
      simp only [encodeChar, if_neg hq, if_neg hb, if_neg h8, if_neg h9, if_neg h10,
        if_neg h12, if_neg h13, if_neg hp, if_neg hlt]]
    simp only [uEsc, hex4, List.cons_append, List.nil_append, List.append_assoc]
    rw [pStrBody_esc fuel
      (Char.ofNat (65536 + 1024 * (55296 + (c.toNat - 65536) / 1024 - 55296) +
        (56320 + (c.toNat - 65536) % 1024 - 56320))) _ tail
      (pEsc_surrogates (55296 + (c.toNat - 65536) / 1024) (56320 + (c.toNat - 65536) % 1024)
        tail (by omega) (by omega) (by omega) (by omega))]
    have harith : 65536 + 1024 * (55296 + (c.toNat - 65536) / 1024 - 55296) +
        (56320 + (c.toNat - 65536) % 1024 - 56320) = c.toNat := by omega
    rw [harith, Char.ofNat_toNat]

theorem encodeChar_length_pos (c : Char) : 1 ≤ (encodeChar c).length := by
  rw [encodeChar]
  split_ifs <;> simp [uEsc, hex4]

theorem encodeBody_length (l : List Char) : l.length ≤ (encodeBody l).length := by
  induction l with
  | nil => simp [encodeBody]
  | cons c rest ih =>
    have := encodeChar_length_pos c
    simp only [encodeBody, List.length_cons, List.length_append]
    omega

theorem pStrBody_encodeBody (l : List Char) :
    ∀ (fuel : Nat) (rest : List Char), l.length < fuel →
    pStrBody fuel (encodeBody l ++ '"' :: rest) = some (l, rest) := by
  induction l with
  | nil =>
    intro fuel rest hf
    cases fuel with
    | zero => omega
    | succ f => simpa [encodeBody] using pStrBody_quote f rest
  | cons c l ih =>
    intro fuel rest hf
    cases fuel with
    | zero => omega
    | succ f =>
      simp only [encodeBody, List.append_assoc]
      rw [pStrBody_encodeChar f c (encodeBody l ++ '"' :: rest),
        ih f rest (by simp at hf; omega)]
      rfl

theorem stringMk_toList (s : String) : String.mk s.toList = s := by
  cases s
  rfl

/- ---------------------------------------------------------------------------
Round trip for numbers.
--------------------------------------------------------------------------- -/

theorem dLen_succ (n : Nat) (h : n ≠ 0) : dLen n = dLen (n / 10) + 1 := by
  cases n with
  | zero => omega
  | succ k => simp [dLen]

theorem serNatAux_append (n : Nat) :
    ∀ (fuel : Nat) (acc : List Char), serNatAux fuel n acc = serNatAux fuel n [] ++ acc := by
  induction n using Nat.strong_induction_on with
  | _ n IH =>
    intro fuel acc
    cases n with
    | zero => cases fuel <;> simp [serNatAux]
    | succ k =>
      cases fuel with
      | zero => simp [serNatAux]
      | succ f =>
        have hlt : (k + 1) / 10 < k + 1 := Nat.div_lt_self (by omega) (by omega)
        simp only [serNatAux]
        rw [IH ((k + 1) / 10) hlt f (digitChr ((k + 1) % 10) :: acc),
          IH ((k + 1) / 10) hlt f [digitChr ((k + 1) % 10)]]
        simp

theorem pDigits_stop (tail : List Char) (a : Nat) (ht : noDigitHead tail = true) :
    pDigits tail a = (a, tail) := by
  cases tail with
  | nil => simp [pDigits]
  | cons c rest =>
    simp only [noDigitHead, Bool.not_eq_true'] at ht
    simp [pDigits, ht]

theorem pDigits_serNatAux (n : Nat) :
    ∀ (fuel : Nat) (acc : List Char) (a : Nat), n ≤ fuel →
    pDigits (serNatAux fuel n acc) a = pDigits acc (a * 10 ^ dLen n + n) := by
  induction n using Nat.strong_induction_on with
  | _ n IH =>
    intro fuel acc a hle
    cases n with
    | zero =>
      cases fuel <;> simp [serNatAux, dLen]
    | succ k =>
      cases fuel with
      | zero => omega
      | succ f =>
        have hlt : (k + 1) / 10 < k + 1 := Nat.div_lt_self (by omega) (by omega)
        simp only [serNatAux]
        rw [IH ((k + 1) / 10) hlt f (digitChr ((k + 1) % 10) :: acc) a (by omega)]
        rw [show pDigits (digitChr ((k + 1) % 10) :: acc)
              (a * 10 ^ dLen ((k + 1) / 10) + (k + 1) / 10) =
            pDigits acc (10 * (a * 10 ^ dLen ((k + 1) / 10) + (k + 1) / 10) +
              digitVal (digitChr ((k + 1) % 10))) from by
          simp only [pDigits, if_pos (digitChr_isDigit ((k + 1) % 10) (by omega))]]
        rw [digitChr_val ((k + 1) % 10) (by omega)]
        congr 1
        rw [dLen_succ (k + 1) (by omega), pow_succ, ← mul_assoc]
        generalize a * 10 ^ dLen ((k + 1) / 10) = Y
        omega

theorem serNatAux_shape (n : Nat) :
    ∀ (fuel : Nat) (acc : List Char), n ≠ 0 → n ≤ fuel →
    ∃ c t, serNatAux fuel n acc = c :: t ∧ isDigitChr c = true := by
  induction n using Nat.strong_induction_on with
  | _ n IH =>
    intro fuel acc hn hle
    cases n with
    | zero => omega
    | succ k =>
      cases fuel with
      | zero => omega
      | succ f =>
        simp only [serNatAux]
        by_cases hm : (k + 1) / 10 = 0
        · rw [hm]
          refine ⟨digitChr ((k + 1) % 10), acc, ?_, digitChr_isDigit _ (by omega)⟩
          cases f <;> simp [serNatAux]
        · have hlt : (k + 1) / 10 < k + 1 := Nat.div_lt_self (by omega) (by omega)
          exact IH ((k + 1) / 10) hlt f (digitChr ((k + 1) % 10) :: acc) hm (by omega)

theorem serNat_shape (n : Nat) : ∃ c t, serNat n = c :: t ∧ isDigitChr c = true := by
  by_cases h : n = 0
  · subst h
    exact ⟨'0', [], by simp [serNat], by decide⟩
  · rw [show serNat n = serNatAux n n [] from by simp [serNat, h]]
    exact serNatAux_shape n n [] h le_rfl

theorem pDigits_serNat (n : Nat) (tail : List Char) (ht : noDigitHead tail = true) :
    pDigits (serNat n ++ tail) 0 = (n, tail) := by
  by_cases h : n = 0
  · subst h
    rw [show serNat 0 = [ '0' ] from by simp [serNat]]
    simp only [List.cons_append, List.nil_append]
    rw [show pDigits ('0' :: tail) 0 = pDigits tail (10 * 0 + digitVal '0') from by
      simp only [pDigits, if_pos (show isDigitChr '0' = true by decide)]]
    rw [pDigits_stop tail _ ht, show digitVal '0' = 0 from by decide]
  · rw [show serNat n = serNatAux n n [] from by simp [serNat, h]]
    rw [show serNatAux n n [] ++ tail = serNatAux n n tail from (serNatAux_append n n tail).symm]
    rw [pDigits_serNatAux n n tail 0 le_rfl]
    simp only [Nat.zero_mul, Nat.zero_add]
    exact pDigits_stop tail n ht

theorem pValue_num (fuel : Nat) (k : Int) (rest : List Char) (ht : noDigitHead rest = true) :
    pValue (fuel + 1) (serInt k ++ rest) = some (.num k, rest) := by
  by_cases hneg : k < 0
  · obtain ⟨c, t, hct, hdig⟩ := serNat_shape k.natAbs
    have hp : pDigits (t ++ rest) (digitVal c) = (k.natAbs, rest) := by
      have h0 := pDigits_serNat k.natAbs rest ht
      rw [hct] at h0
      simp only [List.cons_append] at h0
      rw [show pDigits (c :: (t ++ rest)) 0 = pDigits (t ++ rest) (10 * 0 + digitVal c) from by
        simp only [pDigits, if_pos hdig]] at h0
      simpa using h0
    rw [show serInt k = '-' :: serNat k.natAbs from by simp [serInt, hneg], hct]
    simp only [List.cons_append]
    simp only [pValue, if_neg (show ('-' : Char) ≠ lbrace by decide),
      if_neg (show ('-' : Char) ≠ '[' by decide),
      if_neg (show ('-' : Char) ≠ '"' by decide),
      if_neg (show ('-' : Char) ≠ 'n' by decide),
      if_neg (show ('-' : Char) ≠ 't' by decide),
      if_neg (show ('-' : Char) ≠ 'f' by decide),
      if_pos rfl, if_pos hdig, hp]
    have hcast : -(k.natAbs : Int) = k := by omega
    rw [hcast]
    simp
  · obtain ⟨c, t, hct, hdig⟩ := serNat_shape k.toNat
    have h48 := isDigitChr_toNat c hdig
    have hp : pDigits (t ++ rest) (digitVal c) = (k.toNat, rest) := by
      have h0 := pDigits_serNat k.toNat rest ht
      rw [hct] at h0
      simp only [List.cons_append] at h0
      rw [show pDigits (c :: (t ++ rest)) 0 = pDigits (t ++ rest) (10 * 0 + digitVal c) from by
        simp only [pDigits, if_pos hdig]] at h0
      simpa using h0
    rw [show serInt k = serNat k.toNat from by simp [serInt, hneg], hct]
    simp only [List.cons_append]
    simp only [pValue,
      if_neg (char_ne_of_toNat_ne c lbrace (by rw [show lbrace.toNat = 123 from by decide]; omega)),
      if_neg (char_ne_of_toNat_ne c '[' (by rw [show ('[' : Char).toNat = 91 from by decide]; omega)),
      if_neg (char_ne_of_toNat_ne c '"' (by rw [show ('"' : Char).toNat = 34 from by decide]; omega)),
      if_neg (char_ne_of_toNat_ne c 'n' (by rw [show ('n' : Char).toNat = 110 from by decide]; omega)),
      if_neg (char_ne_of_toNat_ne c 't' (by rw [show ('t' : Char).toNat = 116 from by decide]; omega)),
      if_neg (char_ne_of_toNat_ne c 'f' (by rw [show ('f' : Char).toNat = 102 from by decide]; omega)),
      if_neg (char_ne_of_toNat_ne c '-' (by rw [show ('-' : Char).toNat = 45 from by decide]; omega)),
      if_pos hdig, hp]
    have hcast : ((k.toNat : Nat) : Int) = k := by omega
    rw [hcast]

/- ---------------------------------------------------------------------------
Round trip for strings, literals and heads of serialized values.
--------------------------------------------------------------------------- -/

theorem pValue_str (fuel : Nat) (s : String) (rest : List Char) :
    pValue (fuel + 1) (serStr s ++ rest) = some (.str s, rest) := by
  rw [show serStr s ++ rest = '"' :: (encodeBody s.toList ++ ('"' :: rest)) from by
    simp [serStr]]
  simp only [pValue, if_neg (show ('"' : Char) ≠ lbrace by decide),
    if_neg (show ('"' : Char) ≠ '[' by decide), if_pos rfl]
  rw [pStrBody_encodeBody s.toList _ rest (by
    have := encodeBody_length s.toList
    simp only [List.length_append, List.length_cons]
    omega)]
  simp [stringMk_toList]

theorem pValue_null (fuel : Nat) (rest : List Char) :
    pValue (fuel + 1) ([ 'n', 'u', 'l', 'l' ] ++ rest) = some (.null, rest) := by
  simp only [List.cons_append, List.nil_append]
  simp only [pValue, if_neg (show ('n' : Char) ≠ lbrace by decide),
    if_neg (show ('n' : Char) ≠ '[' by decide),
    if_neg (show ('n' : Char) ≠ '"' by decide), if_pos rfl]
  simp

theorem pValue_true (fuel : Nat) (rest : List Char) :
    pValue (fuel + 1) ([ 't', 'r', 'u', 'e' ] ++ rest) = some (.bool true, rest) := by
  simp only [List.cons_append, List.nil_append]
  simp only [pValue, if_neg (show ('t' : Char) ≠ lbrace by decide),
    if_neg (show ('t' : Char) ≠ '[' by decide),
    if_neg (show ('t' : Char) ≠ '"' by decide),
    if_neg (show ('t' : Char) ≠ 'n' by decide), if_pos rfl]
  simp

theorem pValue_false (fuel : Nat) (rest : List Char) :
    pValue (fuel + 1) ([ 'f', 'a', 'l', 's', 'e' ] ++ rest) = some (.bool false, rest) := by
  simp only [List.cons_append, List.nil_append]
  simp only [pValue, if_neg (show ('f' : Char) ≠ lbrace by decide),
    if_neg (show ('f' : Char) ≠ '[' by decide),
    if_neg (show ('f' : Char) ≠ '"' by decide),
    if_neg (show ('f' : Char) ≠ 'n' by decide),
    if_neg (show ('f' : Char) ≠ 't' by decide), if_pos rfl]
  simp

theorem skipWs_not_ws (c : Char) (l : List Char) (h : isWsChar c = false) :
    skipWs (c :: l) = c :: l := by
  simp [skipWs, h]

theorem skipWs_ws (c : Char) (l : List Char) (h : isWsChar c = true) :
    skipWs (c :: l) = skipWs l := by
  simp [skipWs, h]

theorem serValue_head (v : JsonValue) :
    ∃ c t, serValue v = c :: t ∧ isWsChar c = false ∧ c ≠ ']' ∧ c ≠ rbrace ∧ c ≠ ',' := by
  cases v with
  | null => exact ⟨'n', _, rfl, by decide, by decide, by decide, by decide⟩
  | bool b =>
    cases b
    · exact ⟨'f', _, rfl, by decide, by decide, by decide, by decide⟩
    · exact ⟨'t', _, rfl, by decide, by decide, by decide, by decide⟩
  | num n =>
    by_cases h : n < 0
    · exact ⟨'-', serNat n.natAbs, by simp [serValue, serInt, h], by decide, by decide,
        by decide, by decide⟩
    · obtain ⟨c, t, hct, hdig⟩ := serNat_shape n.toNat
      have h48 := isDigitChr_toNat c hdig
      refine ⟨c, t, by simp [serValue, serInt, h, hct], ?_, ?_, ?_, ?_⟩
      · simp only [isWsChar, Bool.or_eq_false_iff, decide_eq_false_iff_not]
        omega
      · exact char_ne_of_toNat_ne c ']' (by rw [show (']' : Char).toNat = 93 from by decide]; omega)
      · exact char_ne_of_toNat_ne c rbrace (by rw [show rbrace.toNat = 125 from by decide]; omega)
      · exact char_ne_of_toNat_ne c ',' (by rw [show (',' : Char).toNat = 44 from by decide]; omega)
  | str s =>
    exact ⟨'"', encodeBody s.toList ++ [ '"' ], by simp [serValue, serStr], by decide,
      by decide, by decide, by decide⟩
  | arr xs =>
    cases xs with
    | nil => exact ⟨'[', _, rfl, by decide, by decide, by decide, by decide⟩
    | cons x xs => exact ⟨'[', _, rfl, by decide, by decide, by decide, by decide⟩
  | obj kvs =>
    cases kvs with
    | nil => exact ⟨lbrace, _, rfl, by decide, by decide, by decide, by decide⟩
    | cons p ps =>
      obtain ⟨k, v⟩ := p
      exact ⟨lbrace, _, rfl, by decide, by decide, by decide, by decide⟩

theorem skipWs_serValue (v : JsonValue) (rest : List Char) :
    skipWs (serValue v ++ rest) = serValue v ++ rest := by
  obtain ⟨c, t, hct, hws, -, -, -⟩ := serValue_head v
  rw [hct, List.cons_append, skipWs_not_ws c _ hws]

theorem jsize_pos (v : JsonValue) : 1 ≤ jsize v := by
  cases v <;> simp [jsize]

theorem noDigitHead_serArrTail (xs : List JsonValue) (rest : List Char) :
    noDigitHead (serArrTail xs ++ (']' :: rest)) = true := by
  cases xs with
  | nil =>
    simp [serArrTail, noDigitHead]
    decide
  | cons y ys =>
    simp [serArrTail, noDigitHead]
    decide

theorem noDigitHead_serObjTail (kvs : List (String × JsonValue)) (rest : List Char) :
    noDigitHead (serObjTail kvs ++ (rbrace :: rest)) = true := by
  cases kvs with
  | nil =>
    simp [serObjTail, noDigitHead]
    decide
  | cons p ps =>
    obtain ⟨k, v⟩ := p
    simp [serObjTail, noDigitHead]
    decide

/- ---------------------------------------------------------------------------
Keys of well-formed objects.
--------------------------------------------------------------------------- -/

theorem keysND_split (k : String) (v : JsonValue) (l2 : List (String × JsonValue)) :
    ∀ l1, keysND (l1 ++ (k, v) :: l2) = true → ∀ p ∈ l1, p.1 ≠ k := by
  intro l1
  induction l1 with
  | nil => simp
  | cons hd tl ih =>
    obtain ⟨k0, v0⟩ := hd
    intro h p hp
    simp only [List.cons_append, keysND, Bool.and_eq_true, Bool.not_eq_true',
      List.any_eq_false] at h
    obtain ⟨hA, hB⟩ := h
    rcases List.mem_cons.mp hp with hp0 | hptl
    · subst hp0
      have h2 := hA (k, v) (by simp)
      simp only [decide_eq_true_eq] at h2
      exact fun he => h2 he.symm
    · exact ih (by simpa [keysND] using hB) p hptl

theorem objSet_append (k : String) (v : JsonValue) :
    ∀ l, (∀ p ∈ l, p.1 ≠ k) → objSet l k v = l ++ [(k, v)] := by
  intro l
  induction l with
  | nil => simp [objSet]
  | cons hd tl ih =>
    obtain ⟨k0, v0⟩ := hd
    intro h
    have hne : k0 ≠ k := h (k0, v0) (by simp)
    simp [objSet, hne, ih (fun p hp => h p (by simp [hp]))]

theorem skipWs_serStr (s : String) (rest : List Char) :
    skipWs (serStr s ++ rest) = serStr s ++ rest := by
  rw [show serStr s ++ rest = '"' :: (encodeBody s.toList ++ ('"' :: rest)) from by
    simp [serStr]]
  rw [skipWs_not_ws '"' _ (by decide)]

theorem headIs_cons (c d : Char) (l : List Char) : headIs c (d :: l) = decide (d = c) := by
  simp [headIs]

theorem tailOf_cons (d : Char) (l : List Char) : tailOf (d :: l) = l := rfl

theorem headIs_serValue_rbrack (v : JsonValue) (rest : List Char) :
    headIs ']' (serValue v ++ rest) = false := by
  obtain ⟨c, t, hct, -, hcr, -, -⟩ := serValue_head v
  rw [hct, List.cons_append, headIs_cons]
  simp [hcr]

theorem headIs_serStr_rbrace (s : String) (rest : List Char) :
    headIs rbrace (serStr s ++ rest) = false := by
  rw [show serStr s ++ rest = '"' :: (encodeBody s.toList ++ ('"' :: rest)) from by
    simp [serStr], headIs_cons]
  decide

/-- Round trip of the parser over the serializer, by induction on the fuel:
a serialized well-formed value parses back to itself, and likewise for the
element loop and the member loop of arrays and objects. -/
theorem parse_serValue (fuel : Nat) :
    (∀ v rest, wfJ v = true → jsize v ≤ fuel → noDigitHead rest = true →
      pValue fuel (serValue v ++ rest) = some (v, rest)) ∧
    (∀ x xs acc rest, wfJ x = true → wfL xs = true → 1 + jsize x + jsizeL xs ≤ fuel →
      pElems fuel (serValue x ++ (serArrTail xs ++ (']' :: rest))) acc =
        some (.arr (acc.reverse ++ x :: xs), rest)) ∧
    (∀ k v kvs acc rest, wfJ v = true → wfP kvs = true →
      keysND (acc ++ (k, v) :: kvs) = true → 1 + jsize v + jsizeP kvs ≤ fuel →
      pMembers fuel
          (serStr k ++ (':' :: ' ' :: (serValue v ++ (serObjTail kvs ++ (rbrace :: rest))))) acc =
        some (.obj (acc ++ (k, v) :: kvs), rest)) := by
  induction fuel with
  | zero =>
    refine ⟨?_, ?_, ?_⟩
    · intro v rest hwf hsz hnd
      have := jsize_pos v
      omega
    · intro x xs acc rest hwx hwxs hsz
      omega
    · intro k v kvs acc rest hwv hwkvs hknd hsz
      omega
  | succ fuel IH =>
    obtain ⟨IHA, IHB, IHC⟩ := IH
    refine ⟨?_, ?_, ?_⟩
    · -- values
      intro v rest hwf hsz hnd
      cases v with
      | null =>
        rw [show serValue .null = [ 'n', 'u', 'l', 'l' ] from rfl]
        exact pValue_null fuel rest
      | bool b =>
        cases b
        · rw [show serValue (.bool false) = [ 'f', 'a', 'l', 's', 'e' ] from rfl]
          exact pValue_false fuel rest
        · rw [show serValue (.bool true) = [ 't', 'r', 'u', 'e' ] from rfl]
          exact pValue_true fuel rest
      | num n =>
        rw [show serValue (.num n) = serInt n from by simp [serValue]]
        exact pValue_num fuel n rest hnd
      | str s =>
        rw [show serValue (.str s) = serStr s from by simp [serValue]]
        exact pValue_str fuel s rest
      | arr xs =>
        cases xs with
        | nil =>
          rw [show serValue (.arr []) = [ '[', ']' ] from rfl]
          simp only [List.cons_append, List.nil_append]
          simp only [pValue, if_neg (show ('[' : Char) ≠ lbrace by decide), if_pos rfl]
          rw [skipWs_not_ws ']' rest (by decide)]
          simp [headIs, tailOf]
        | cons x xs =>
          rw [show serValue (.arr (x :: xs)) ++ rest =
              '[' :: (serValue x ++ (serArrTail xs ++ (']' :: rest))) from by
            simp [serValue]]
          simp only [pValue, if_neg (show ('[' : Char) ≠ lbrace by decide), if_pos rfl]
          rw [skipWs_serValue x (serArrTail xs ++ (']' :: rest)),
            headIs_serValue_rbrack x (serArrTail xs ++ (']' :: rest))]
          simp only [Bool.false_eq_true, if_false]
          simp only [wfJ, wfL, Bool.and_eq_true] at hwf
          simp only [jsize, jsizeL] at hsz
          rw [IHB x xs [] rest hwf.1 hwf.2 (by omega)]
          simp
      | obj kvs =>
        cases kvs with
        | nil =>
          rw [show serValue (.obj []) = [lbrace, rbrace] from rfl]
          simp only [List.cons_append, List.nil_append]
          simp only [pValue, if_pos rfl]
          rw [skipWs_not_ws rbrace rest (by decide)]
          simp [headIs, tailOf]
        | cons p kvs =>
          obtain ⟨k, v⟩ := p
          rw [show serValue (.obj ((k, v) :: kvs)) ++ rest =
              lbrace :: (serStr k ++ (':' :: ' ' ::
                (serValue v ++ (serObjTail kvs ++ (rbrace :: rest))))) from by
            simp [serValue]]
          simp only [pValue, if_pos rfl]
          rw [skipWs_serStr k (':' :: ' ' ::
              (serValue v ++ (serObjTail kvs ++ (rbrace :: rest)))),
            headIs_serStr_rbrace k (':' :: ' ' ::
              (serValue v ++ (serObjTail kvs ++ (rbrace :: rest))))]
          simp only [Bool.false_eq_true, if_false]
          simp only [wfJ, wfP, keysND, Bool.and_eq_true] at hwf
          simp only [jsize, jsizeP] at hsz
          rw [IHC k v kvs [] rest hwf.2.1 hwf.2.2 (by simpa [keysND] using hwf.1) (by omega)]
          simp
    · -- array elements
      intro x xs acc rest hwx hwxs hsz
      simp only [pElems]
      rw [IHA x (serArrTail xs ++ (']' :: rest)) hwx (by omega) (noDigitHead_serArrTail xs rest)]
      cases xs with
      | nil =>
        simp only [serArrTail, List.nil_append]
        rw [skipWs_not_ws ']' rest (by decide)]
        simp only [if_neg (show (']' : Char) ≠ ',' by decide), if_pos rfl]
        simp
      | cons y ys =>
        rw [show serArrTail (y :: ys) ++ (']' :: rest) =
            ',' :: ' ' :: (serValue y ++ (serArrTail ys ++ (']' :: rest))) from by
          simp [serArrTail]]
        simp only [wfL, Bool.and_eq_true] at hwxs
        simp only [jsizeL] at hsz
        have hxp := jsize_pos x
        simp only [skipWs_not_ws ','
            (' ' :: (serValue y ++ (serArrTail ys ++ (']' :: rest)))) (by decide),
          if_pos rfl,
          skipWs_ws ' ' (serValue y ++ (serArrTail ys ++ (']' :: rest))) (by decide),
          skipWs_serValue y (serArrTail ys ++ (']' :: rest)),
          IHB y ys (x :: acc) rest hwxs.1 hwxs.2 (by omega)]
        simp
    · -- object members
      intro k v kvs acc rest hwv hwkvs hknd hsz
      rw [show serStr k ++ (':' :: ' ' ::
          (serValue v ++ (serObjTail kvs ++ (rbrace :: rest)))) =
          '"' :: (encodeBody k.toList ++ ('"' :: (':' :: ' ' ::
            (serValue v ++ (serObjTail kvs ++ (rbrace :: rest)))))) from by simp [serStr]]
      simp only [pMembers, if_pos rfl]
      rw [pStrBody_encodeBody k.toList _
        (':' :: ' ' :: (serValue v ++ (serObjTail kvs ++ (rbrace :: rest)))) (by
          have := encodeBody_length k.toList
          simp only [List.length_append, List.length_cons]
          omega)]
      simp only [skipWs_not_ws ':'
          (' ' :: (serValue v ++ (serObjTail kvs ++ (rbrace :: rest)))) (by decide),
        if_pos rfl,
        skipWs_ws ' ' (serValue v ++ (serObjTail kvs ++ (rbrace :: rest))) (by decide),
        skipWs_serValue v (serObjTail kvs ++ (rbrace :: rest)),
        IHA v (serObjTail kvs ++ (rbrace :: rest)) hwv (by omega)
          (noDigitHead_serObjTail kvs rest),
        stringMk_toList,
        objSet_append k v acc (keysND_split k v kvs acc hknd)]
      cases kvs with
      | nil =>
        simp only [serObjTail, List.nil_append,
          skipWs_not_ws rbrace rest (by decide),
          if_neg (show rbrace ≠ ',' by decide), if_pos rfl]
        simp
      | cons p kvs2 =>
        obtain ⟨k2, v2⟩ := p
        rw [show serObjTail ((k2, v2) :: kvs2) ++ (rbrace :: rest) =
            ',' :: ' ' :: (serStr k2 ++ (':' :: ' ' ::
              (serValue v2 ++ (serObjTail kvs2 ++ (rbrace :: rest))))) from by
          simp [serObjTail]]
        simp only [wfP, Bool.and_eq_true] at hwkvs
        simp only [jsizeP] at hsz
        have hvp := jsize_pos v
        simp only [skipWs_not_ws ','
            (' ' :: (serStr k2 ++ (':' :: ' ' ::
              (serValue v2 ++ (serObjTail kvs2 ++ (rbrace :: rest)))))) (by decide),
          if_pos rfl,
          skipWs_ws ' ' (serStr k2 ++ (':' :: ' ' ::
            (serValue v2 ++ (serObjTail kvs2 ++ (rbrace :: rest))))) (by decide),
          skipWs_serStr k2 (':' :: ' ' ::
            (serValue v2 ++ (serObjTail kvs2 ++ (rbrace :: rest)))),
          IHC k2 v2 kvs2 (acc ++ [(k, v)]) rest hwkvs.1 hwkvs.2
            (by simpa [List.append_assoc] using hknd) (by omega)]
        simp

/- ---------------------------------------------------------------------------
The fuel supplied by `loads` dominates the size of any serialized value.
--------------------------------------------------------------------------- -/

theorem serNat_length_pos (n : Nat) : 1 ≤ (serNat n).length := by
  obtain ⟨c, t, hct, -⟩ := serNat_shape n
  simp [hct]

theorem serInt_length_pos (k : Int) : 1 ≤ (serInt k).length := by
  by_cases h : k < 0
  · simp [serInt, h]
  · simp only [serInt, if_neg h]
    exact serNat_length_pos k.toNat

mutual

theorem jsize_le_len : (v : JsonValue) → jsize v ≤ 2 * (serValue v).length
  | .null => by simp [jsize, serValue]
  | .bool b => by cases b <;> simp [jsize, serValue]
  | .num n => by
    have := serInt_length_pos n
    simp only [jsize, serValue]
    omega
  | .str s => by
    simp only [jsize, serValue, serStr]
    simp
    omega
  | .arr [] => by simp [jsize, jsizeL, serValue]
  | .arr (x :: xs) => by
    have h1 := jsize_le_len x
    have h2 := jsizeL_le_len xs
    simp only [jsize, jsizeL, serValue, List.length_cons, List.length_append]
    omega
  | .obj [] => by simp [jsize, jsizeP, serValue]
  | .obj ((k, v) :: kvs) => by
    have h1 := jsize_le_len v
    have h2 := jsizeP_le_len kvs
    simp only [jsize, jsizeP, serValue, List.length_cons, List.length_append]
    omega

theorem jsizeL_le_len : (xs : List JsonValue) → jsizeL xs ≤ 2 * (serArrTail xs).length + 2
  | [] => by simp [jsizeL, serArrTail]
  | x :: xs => by
    have h1 := jsize_le_len x
    have h2 := jsizeL_le_len xs
    simp only [jsizeL, serArrTail, List.length_cons, List.length_append]
    omega

theorem jsizeP_le_len : (kvs : List (String × JsonValue)) →
    jsizeP kvs ≤ 2 * (serObjTail kvs).length + 2
  | [] => by simp [jsizeP, serObjTail]
  | (k, v) :: kvs => by
    have h1 := jsize_le_len v
    have h2 := jsizeP_le_len kvs
    simp only [jsizeP, serObjTail, List.length_cons, List.length_append]
    omega

end

/-- The serialize-then-parse round trip: a well-formed JSON value survives
`dumps` followed by `loads` unchanged. -/
theorem loads_dumps (v : JsonValue) (hwf : wfJ v = true) : loads (dumps v) = some v := by
  rw [loads]
  have htl : (dumps v).toList = serValue v := rfl
  rw [htl]
  rw [show skipWs (serValue v) = serValue v from by
    have := skipWs_serValue v []
    simpa using this]
  obtain ⟨hA, -, -⟩ := parse_serValue (2 * (serValue v).length + 2)
  have := hA v [] hwf (by have := jsize_le_len v; omega) (by simp [noDigitHead])
  simp only [List.append_nil] at this
  rw [this]
  simp [skipWs]

/- ---------------------------------------------------------------------------
Well-formedness: helpers and preservation by dict update.
--------------------------------------------------------------------------- -/

theorem wfL_iff (l : List JsonValue) : wfL l = true ↔ ∀ x ∈ l, wfJ x = true := by
  induction l with
  | nil => simp [wfL]
  | cons x rest ih => simp [wfL, Bool.and_eq_true, ih]

theorem wfP_iff (l : List (String × JsonValue)) :
    wfP l = true ↔ ∀ p ∈ l, wfJ p.2 = true := by
  induction l with
  | nil => simp [wfP]
  | cons p rest ih =>
    obtain ⟨k, v⟩ := p
    simp [wfP, Bool.and_eq_true, ih]

theorem objSet_any_key (k : String) (v : JsonValue) (k0 : String) :
    ∀ l : List (String × JsonValue),
    (objSet l k v).any (fun kv => kv.1 = k0) =
      (l.any (fun kv => kv.1 = k0) || decide (k = k0)) := by
  intro l
  induction l with
  | nil => simp [objSet]
  | cons p rest ih =>
    obtain ⟨k1, v1⟩ := p
    by_cases h : k1 = k
    · subst h
      by_cases h0 : k1 = k0 <;> simp [objSet, h0]
    · by_cases h0 : k1 = k0
      · subst h0
        simp [objSet, h, ih]
      · simp [objSet, h, h0, ih, Bool.or_assoc]

theorem objSet_keysND (k : String) (v : JsonValue) :
    ∀ l : List (String × JsonValue), keysND l = true → keysND (objSet l k v) = true := by
  intro l
  induction l with
  | nil => simp [objSet, keysND]
  | cons p rest ih =>
    obtain ⟨k1, v1⟩ := p
    intro h
    simp only [keysND, Bool.and_eq_true, Bool.not_eq_true'] at h
    obtain ⟨h1, h2⟩ := h
    by_cases hk : k1 = k
    · subst hk
      simp [objSet, keysND, Bool.not_eq_true', h1, h2]
    · simp only [objSet, if_neg hk, keysND, Bool.and_eq_true, Bool.not_eq_true']
      refine ⟨?_, ih h2⟩
      rw [objSet_any_key]
      simp only [h1, Bool.false_or, decide_eq_false_iff_not]
      exact fun he => hk he.symm

theorem objSet_wfP (k : String) (v : JsonValue) (hv : wfJ v = true) :
    ∀ l : List (String × JsonValue), wfP l = true → wfP (objSet l k v) = true := by
  intro l
  induction l with
  | nil => simp [objSet, wfP, hv]
  | cons p rest ih =>
    obtain ⟨k1, v1⟩ := p
    intro h
    simp only [wfP, Bool.and_eq_true] at h
    by_cases hk : k1 = k
    · subst hk
      simp [objSet, wfP, hv, h.2]
    · simp [objSet, hk, wfP, h.1, ih h.2]

theorem wfP_objGet (k : String) :
    ∀ l : List (String × JsonValue), wfP l = true → ∀ u, objGet l k = some u → wfJ u = true := by
  intro l
  induction l with
  | nil => simp [objGet]
  | cons p rest ih =>
    obtain ⟨k1, v1⟩ := p
    intro h u hg
    simp only [wfP, Bool.and_eq_true] at h
    by_cases hk : k1 = k
    · simp only [objGet, if_pos hk] at hg
      cases hg
      exact h.1
    · simp only [objGet, if_neg hk] at hg
      exact ih h.2 u hg


/-- Every value the parser produces is well-formed: objects are built with
`objSet` (Python dict insertion), so keys are pairwise distinct. -/
theorem parse_wf (fuel : Nat) :
    (∀ cs v rest, pValue fuel cs = some (v, rest) → wfJ v = true) ∧
    (∀ cs acc v rest, (∀ x ∈ acc, wfJ x = true) →
      pElems fuel cs acc = some (v, rest) → wfJ v = true) ∧
    (∀ cs acc v rest, keysND acc = true → wfP acc = true →
      pMembers fuel cs acc = some (v, rest) → wfJ v = true) := by
  induction fuel with
  | zero =>
    refine ⟨?_, ?_, ?_⟩
    · intro cs v rest h
      simp [pValue] at h
    · intro cs acc v rest hacc h
      simp [pElems] at h
    · intro cs acc v rest hknd hwp h
      simp [pMembers] at h
  | succ fuel IH =>
    obtain ⟨IHA, IHB, IHC⟩ := IH
    refine ⟨?_, ?_, ?_⟩
    · intro cs v rest h
      cases cs with
      | nil => simp [pValue] at h
      | cons c rest0 =>
        simp only [pValue] at h
        split_ifs at h
        all_goals try split at h
        all_goals try split_ifs at h
        all_goals
          first
          | exact IHC _ [] _ _ rfl rfl h
          | exact IHB _ [] _ _ (by simp) h
          | (cases h; try simp [wfJ, keysND, wfP, wfL])
    · intro cs acc v rest hacc h
      simp only [pElems] at h
      cases hpv : pValue fuel cs with
      | none =>
        rw [hpv] at h
        simp at h
      | some p =>
        obtain ⟨v0, rest0⟩ := p
        rw [hpv] at h
        have hv0 : wfJ v0 = true := IHA cs v0 rest0 hpv
        have h1 : (match skipWs rest0 with
            | [] => none
            | c :: rest2 =>
              if c = ',' then pElems fuel (skipWs rest2) (v0 :: acc)
              else if c = ']' then some (JsonValue.arr (v0 :: acc).reverse, rest2)
              else none) = some (v, rest) := h
        cases hsw : skipWs rest0 with
        | nil =>
          rw [hsw] at h1
          simp at h1
        | cons c rest2 =>
          rw [hsw] at h1
          have h2 : (if c = ',' then pElems fuel (skipWs rest2) (v0 :: acc)
              else if c = ']' then some (JsonValue.arr (v0 :: acc).reverse, rest2)
              else none) = some (v, rest) := h1
          split_ifs at h2
          · refine IHB _ (v0 :: acc) v rest ?_ h2
            intro x hx
            rcases List.mem_cons.mp hx with hx | hx
            · subst hx
              exact hv0
            · exact hacc x hx
          · cases h2
            simp only [wfJ]
            rw [wfL_iff]
            intro x hx
            rw [List.mem_reverse] at hx
            rcases List.mem_cons.mp hx with hx | hx
            · subst hx
              exact hv0
            · exact hacc x hx
    · intro cs acc v rest hknd hwp h
      cases cs with
      | nil => simp [pMembers] at h
      | cons c rest0 =>
        simp only [pMembers] at h
        split_ifs at h
        cases hps : pStrBody rest0.length rest0 with
        | none =>
          rw [hps] at h
          simp at h
        | some q =>
          obtain ⟨kcs, rest2⟩ := q
          rw [hps] at h
          have h1 : (match skipWs rest2 with
              | [] => none
              | d :: rest3 =>
                if d = ':' then
                  (match pValue fuel (skipWs rest3) with
                   | some (v0, rest4) =>
                     (match skipWs rest4 with
                      | [] => none
                      | e2 :: rest5 =>
                        if e2 = ',' then
                          pMembers fuel (skipWs rest5) (objSet acc (String.mk kcs) v0)
                        else if e2 = rbrace then
                          some (JsonValue.obj (objSet acc (String.mk kcs) v0), rest5)
                        else none)
                   | none => none)
                else none) = some (v, rest) := h
          cases hsw : skipWs rest2 with
          | nil =>
            rw [hsw] at h1
            simp at h1
          | cons d rest3 =>
            rw [hsw] at h1
            have h2 : (if d = ':' then
                (match pValue fuel (skipWs rest3) with
                 | some (v0, rest4) =>
                   (match skipWs rest4 with
                    | [] => none
                    | e2 :: rest5 =>
                      if e2 = ',' then
                        pMembers fuel (skipWs rest5) (objSet acc (String.mk kcs) v0)
                      else if e2 = rbrace then
                        some (JsonValue.obj (objSet acc (String.mk kcs) v0), rest5)
                      else none)
                 | none => none)
                else none) = some (v, rest) := h1
            split_ifs at h2
            cases hpv : pValue fuel (skipWs rest3) with
            | none =>
              rw [hpv] at h2
              simp at h2
            | some p =>
              obtain ⟨v0, rest4⟩ := p
              rw [hpv] at h2
              have hv0 : wfJ v0 = true := IHA _ v0 rest4 hpv
              have h3 : (match skipWs rest4 with
                  | [] => none
                  | e2 :: rest5 =>
                    if e2 = ',' then
                      pMembers fuel (skipWs rest5) (objSet acc (String.mk kcs) v0)
                    else if e2 = rbrace then
                      some (JsonValue.obj (objSet acc (String.mk kcs) v0), rest5)
                    else none) = some (v, rest) := h2
              cases hsw2 : skipWs rest4 with
              | nil =>
                rw [hsw2] at h3
                simp at h3
              | cons e2 rest5 =>
                rw [hsw2] at h3
                have h4 : (if e2 = ',' then
                    pMembers fuel (skipWs rest5) (objSet acc (String.mk kcs) v0)
                    else if e2 = rbrace then
                      some (JsonValue.obj (objSet acc (String.mk kcs) v0), rest5)
                    else none) = some (v, rest) := h3
                split_ifs at h4
                · exact IHC _ (objSet acc (String.mk kcs) v0) v rest
                    (objSet_keysND _ _ _ hknd) (objSet_wfP _ _ hv0 _ hwp) h4
                · cases h4
                  simp only [wfJ, Bool.and_eq_true]
                  exact ⟨objSet_keysND _ _ _ hknd, objSet_wfP _ _ hv0 _ hwp⟩

theorem loads_wf (s : String) (v : JsonValue) (h : loads s = some v) : wfJ v = true := by
  simp only [loads] at h
  cases hpv : pValue (2 * (skipWs s.toList).length + 2) (skipWs s.toList) with
  | none =>
    rw [hpv] at h
    simp at h
  | some p =>
    obtain ⟨v0, rest⟩ := p
    rw [hpv] at h
    have h1 : (if skipWs rest = [] then some v0 else none) = some v := h
    split_ifs at h1
    cases h1
    exact (parse_wf _).1 _ _ _ hpv

theorem toRecords_wf (v : JsonValue) (ms : List JsonValue) (hv : wfJ v = true)
    (h : toRecords v = .ok ms) : ∀ m ∈ ms, wfJ m = true := by
  cases v with
  | obj kvs =>
    simp only [toRecords] at h
    cases h
    intro m hm
    simp only [List.mem_singleton] at hm
    subst hm
    exact hv
  | arr xs =>
    simp only [toRecords] at h
    cases h
    simp only [wfJ] at hv
    exact (wfL_iff ms).mp hv
  | null => simp [toRecords] at h
  | bool b => simp [toRecords] at h
  | num n => simp [toRecords] at h
  | str s => simp [toRecords] at h

theorem normalizeRecord_wf (ts : Int) (e e2 : JsonValue) (hwf : wfJ e = true)
    (h : normalizeRecord ts e = .ok e2) : wfJ e2 = true := by
  cases e with
  | obj kvs =>
    cases hg : objGet kvs "_aws" with
    | none =>
      simp only [normalizeRecord, hg] at h
      cases h
      exact hwf
    | some w =>
      cases w with
      | obj aws =>
        simp only [normalizeRecord, hg] at h
        cases h
        simp only [wfJ, Bool.and_eq_true] at hwf ⊢
        have haws : wfJ (.obj aws) = true := wfP_objGet "_aws" kvs hwf.2 _ hg
        simp only [wfJ, Bool.and_eq_true] at haws
        refine ⟨objSet_keysND _ _ _ hwf.1, objSet_wfP _ _ ?_ _ hwf.2⟩
        simp only [wfJ, Bool.and_eq_true]
        exact ⟨objSet_keysND _ _ _ haws.1, objSet_wfP _ _ (by simp [wfJ]) _ haws.2⟩
      | null =>
        simp only [normalizeRecord, hg] at h
        cases h
      | bool b =>
        simp only [normalizeRecord, hg] at h
        cases h
      | num n =>
        simp only [normalizeRecord, hg] at h
        cases h
      | str s =>
        simp only [normalizeRecord, hg] at h
        cases h
      | arr xs =>
        simp only [normalizeRecord, hg] at h
        cases h
  | null =>
    simp only [normalizeRecord] at h
    cases h
  | bool b =>
    simp only [normalizeRecord] at h
    cases h
  | num n =>
    simp only [normalizeRecord] at h
    cases h
  | str s =>
    simp only [normalizeRecord] at h
    cases h
  | arr xs =>
    simp only [normalizeRecord] at h
    cases h

theorem normalizeAll_wf (clock : Nat → Nat) :
    ∀ (ms : List JsonValue) (start : Nat) (ms2 : List JsonValue),
    (∀ m ∈ ms, wfJ m = true) → normalizeAll clock start ms = .ok ms2 →
    ∀ m ∈ ms2, wfJ m = true := by
  intro ms
  induction ms with
  | nil =>
    intro start ms2 h hn
    simp only [normalizeAll] at hn
    cases hn
    simp
  | cons e rest ih =>
    intro start ms2 hwf hn
    simp only [normalizeAll] at hn
    cases he : normalizeRecord ((clock start : Int) - 1000) e with
    | error err =>
      rw [he] at hn
      cases hn
    | ok e2 =>
      rw [he] at hn
      cases hr : normalizeAll clock (start + 1) rest with
      | error err =>
        rw [hr] at hn
        cases hn
      | ok rest2 =>
        rw [hr] at hn
        cases hn
        intro m hm
        rcases List.mem_cons.mp hm with hm | hm
        · subst hm
          exact normalizeRecord_wf _ _ _ (hwf e (by simp)) he
        · exact ih (start + 1) rest2 (fun x hx => hwf x (by simp [hx])) hr m hm

/-- C8: every record of a processed batch, as it stands right before
upload-time serialization (i.e. after loading and normalization), survives a
serialize-then-parse round trip unchanged: `json.loads(json.dumps(m))`
returns a value deep-equal to `m`. -/
theorem claim8_serialize_parse_roundtrip (content : String) (v : JsonValue)
    (ms ms2 : List JsonValue) (clock : Nat → Nat)
    (hload : loads content = some v)
    (hrec : toRecords v = .ok ms)
    (hnorm : normalizeAll clock 0 ms = .ok ms2) :
    ∀ m ∈ ms2, loads (dumps m) = some m := by
  intro m hm
  have hv := loads_wf content v hload
  have hms := toRecords_wf v ms hv hrec
  have hms2 := normalizeAll_wf clock ms 0 ms2 hms hnorm
  exact loads_dumps m (hms2 m hm)

theorem claim8_witness :
    loads (dumps (JsonValue.obj [("_aws", .obj [("Timestamp", .num 1699999999000)]),
        ("my_counter", .num 2)])) =
      some (JsonValue.obj [("_aws", .obj [("Timestamp", .num 1699999999000)]),
        ("my_counter", .num 2)]) :=
  claim8_serialize_parse_roundtrip
    (dumps (.arr [.obj [("_aws", .obj [("Timestamp", .num 1)]), ("my_counter", .num 2)]]))
    (.arr [.obj [("_aws", .obj [("Timestamp", .num 1)]), ("my_counter", .num 2)]])
    [.obj [("_aws", .obj [("Timestamp", .num 1)]), ("my_counter", .num 2)]]
    [.obj [("_aws", .obj [("Timestamp", .num 1699999999000)]), ("my_counter", .num 2)]]
    (fun i => 1700000000000 + i)
    rfl rfl rfl
    (JsonValue.obj [("_aws", .obj [("Timestamp", .num 1699999999000)]),
      ("my_counter", .num 2)])
    (by simp)
